import Mathlib

/-!
Verification of the Helios/Koi compiler front end: a shallow embedding of
the diagnostic model (`helios-diagnostics/src/diagnostic.rs`), the
syntax-kind table (`koi-syntax/src/syntax.rs`, `koi-syntax/src/lang.rs`),
the event-replaying tree sink (`helios-parser/src/parser/sink.rs`) and the
recursive-descent/precedence-climbing expression parser
(`koi-syntax/src/parser.rs`), together with proofs of the behavioral
properties stated in the specification.

Rust integers are modelled as `Nat` (all values involved are tiny and no
arithmetic can overflow: binding powers are at most 10, discriminants at
most 77), fallible or diverging code is modelled with `Option`, and
mutation is modelled by explicit state passing.
-/

set_option maxRecDepth 8000
set_option maxHeartbeats 1600000

namespace HeliosDiag

/-- Severity of a diagnostic, from `helios-diagnostics/src/diagnostic.rs`.
The Rust enum is `#[repr(u8)]` with explicit discriminants
`Bug = 3, Error = 2, Warning = 1, Note = 0`, declared in that order, and
derives `Ord`/`PartialOrd`, which compare the discriminant values. -/
inductive Severity where
  | Bug
  | Error
  | Warning
  | Note
deriving DecidableEq

/-- The explicit `#[repr(u8)]` discriminant of each `Severity` variant. -/
def Severity.disc : Severity → Nat
  | .Bug => 3
  | .Error => 2
  | .Warning => 1
  | .Note => 0

/-- The derived `PartialOrd`/`Ord` strict comparison on `Severity`:
Rust's derived order on a fieldless enum compares discriminant values. -/
def sevLt (a b : Severity) : Bool := a.disc < b.disc

/-- Default `Severity` (`impl Default for Severity`). -/
def Severity.default : Severity := .Note

/-- Location of a diagnostic (`Location<FileId>` with a `Range<usize>`);
the Rust range field `end` is spelled `stop` here. -/
structure Location (FileId : Type) where
  file_id : FileId
  range_start : Nat
  range_stop : Nat
deriving DecidableEq

mutual
/-- A formatted text document: an ordered sequence of segments
(`FormattedText` in `diagnostic.rs`). -/
inductive FormattedText where
  | mk (segments : List FormattedTextSegment)

/-- One segment of a `FormattedText` (`FormattedTextSegment`). -/
inductive FormattedTextSegment where
  | LineBreak
  | Text (s : String)
  | Code (s : String)
  | CodeBlock (s : String)
  | List (l : List FormattedText)
end

/-- A diagnostic (`Diagnostic<FileId>` in `diagnostic.rs`). -/
structure Diagnostic (FileId : Type) where
  location : Location FileId
  severity : Severity
  title : String
  description : Option FormattedText
  message : FormattedText
  hint : Option FormattedText

/-- Builder method `Diagnostic::severity` (the Rust method shares its name
with the field; the prime disambiguates): sets the severity, moves `self`. -/
def Diagnostic.severity' (d : Diagnostic F) (severity : Severity) : Diagnostic F :=
  { d with severity := severity }

/-- Builder method `Diagnostic::title`. -/
def Diagnostic.title' (d : Diagnostic F) (title : String) : Diagnostic F :=
  { d with title := title }

/-- Builder method `Diagnostic::description`: wraps its argument in `Some`. -/
def Diagnostic.description' (d : Diagnostic F) (description : FormattedText) : Diagnostic F :=
  { d with description := some description }

/-- Builder method `Diagnostic::message`. -/
def Diagnostic.message' (d : Diagnostic F) (message : FormattedText) : Diagnostic F :=
  { d with message := message }

/-- Builder method `Diagnostic::location`. -/
def Diagnostic.location' (d : Diagnostic F) (location : Location F) : Diagnostic F :=
  { d with location := location }

/-- Builder method `Diagnostic::hint`: wraps its argument in `Some`. -/
def Diagnostic.hint' (d : Diagnostic F) (hint : FormattedText) : Diagnostic F :=
  { d with hint := some hint }

end HeliosDiag

namespace KoiLang

/-- The syntax-kind table of `koi-syntax/src/syntax.rs`: a `#[repr(u16)]`
enum with no explicit discriminants, so each variant's discriminant is its
declaration index; `Root` is deliberately declared last. -/
inductive SyntaxKind where
  | Kwd_Alias
  | Kwd_And
  | Kwd_As
  | Kwd_Else
  | Kwd_Extend
  | Kwd_External
  | Kwd_For
  | Kwd_Function
  | Kwd_If
  | Kwd_Import
  | Kwd_In
  | Kwd_Interface
  | Kwd_Let
  | Kwd_Match
  | Kwd_Module
  | Kwd_Not
  | Kwd_Of
  | Kwd_Or
  | Kwd_Public
  | Kwd_Ref
  | Kwd_Return
  | Kwd_Type
  | Kwd_Unimplemented
  | Kwd_Var
  | Kwd_Where
  | Kwd_While
  | Kwd_With
  | Sym_Ampersand
  | Sym_Asterisk
  | Sym_At
  | Sym_BackSlash
  | Sym_Bang
  | Sym_BangEq
  | Sym_Caret
  | Sym_Colon
  | Sym_Comma
  | Sym_Dollar
  | Sym_Dot
  | Sym_EmDash
  | Sym_EnDash
  | Sym_Eq
  | Sym_ForwardSlash
  | Sym_Minus
  | Sym_Percent
  | Sym_Pipe
  | Sym_Plus
  | Sym_Pound
  | Sym_Question
  | Sym_Semicolon
  | Sym_Sterling
  | Sym_Tilde
  | Sym_Lt
  | Sym_LtEq
  | Sym_Gt
  | Sym_GtEq
  | Sym_LThinArrow
  | Sym_RThinArrow
  | Sym_ThickArrow
  | Sym_LBrace
  | Sym_RBrace
  | Sym_LBracket
  | Sym_RBracket
  | Sym_LParen
  | Sym_RParen
  | Lit_Character
  | Lit_Float
  | Lit_Integer
  | Lit_String
  | Exp_Binary
  | Exp_Paren
  | Exp_UnaryPrefix
  | Exp_UnaryPostfix
  | LineComment
  | LineDocComment
  | Whitespace
  | Identifier
  | Error
  | Root

/-- All `SyntaxKind` variants in declaration order; the position of a
variant in this list is its `#[repr(u16)]` discriminant. -/
def kindList : List SyntaxKind :=
  [.Kwd_Alias, .Kwd_And, .Kwd_As, .Kwd_Else, .Kwd_Extend, .Kwd_External,
   .Kwd_For, .Kwd_Function, .Kwd_If, .Kwd_Import, .Kwd_In, .Kwd_Interface,
   .Kwd_Let, .Kwd_Match, .Kwd_Module, .Kwd_Not, .Kwd_Of, .Kwd_Or,
   .Kwd_Public, .Kwd_Ref, .Kwd_Return, .Kwd_Type, .Kwd_Unimplemented,
   .Kwd_Var, .Kwd_Where, .Kwd_While, .Kwd_With,
   .Sym_Ampersand, .Sym_Asterisk, .Sym_At, .Sym_BackSlash, .Sym_Bang,
   .Sym_BangEq, .Sym_Caret, .Sym_Colon, .Sym_Comma, .Sym_Dollar, .Sym_Dot,
   .Sym_EmDash, .Sym_EnDash, .Sym_Eq, .Sym_ForwardSlash, .Sym_Minus,
   .Sym_Percent, .Sym_Pipe, .Sym_Plus, .Sym_Pound, .Sym_Question,
   .Sym_Semicolon, .Sym_Sterling, .Sym_Tilde,
   .Sym_Lt, .Sym_LtEq, .Sym_Gt, .Sym_GtEq, .Sym_LThinArrow,
   .Sym_RThinArrow, .Sym_ThickArrow,
   .Sym_LBrace, .Sym_RBrace, .Sym_LBracket, .Sym_RBracket, .Sym_LParen,
   .Sym_RParen,
   .Lit_Character, .Lit_Float, .Lit_Integer, .Lit_String,
   .Exp_Binary, .Exp_Paren, .Exp_UnaryPrefix, .Exp_UnaryPostfix,
   .LineComment, .LineDocComment, .Whitespace,
   .Identifier, .Error, .Root]

/-- `Language::kind_to_raw` (`koi-syntax/src/lang.rs`), i.e.
`From<SyntaxKind> for rowan::SyntaxKind` (`kind as u16`): the variant's
discriminant, that is, its index in the declaration order. -/
def kind_to_raw (kind : SyntaxKind) : Nat := SyntaxKind.toCtorIdx kind

/-- `Language::kind_from_raw` (`koi-syntax/src/lang.rs`): asserts
`raw <= SyntaxKind::Root as u16` (an assertion failure aborts, modelled by
`none`), then transmutes the raw value back to the variant with that
discriminant. -/
def kind_from_raw (raw : Nat) : Option SyntaxKind :=
  if raw ≤ kind_to_raw SyntaxKind.Root then kindList.get? raw else none

end KoiLang

namespace HeliosSink

/-- Modelled from the spec: the syntax-kind tag of the Helios tree (the
`helios-syntax` crate is absent from the sources; only the kinds that the
present code — `helios-parser/src/parser/sink.rs`,
`helios-parser/src/grammar/decl.rs` and its expected-tree test — names are
included, plus the zero-width missing-expression node kind the spec's
recovery policy requires). -/
inductive SyntaxKind where
  | Kwd_Let
  | Identifier
  | Sym_Eq
  | Sym_Plus
  | Whitespace
  | LineComment
  | Lit_Integer
  | Dec_GlobalBinding
  | Exp_VariableRef
  | Exp_Literal
  | Exp_Binary
  | Exp_MissingExpression
  | Root
deriving DecidableEq

/-- Modelled from the spec: `SyntaxKind::is_trivia` (absent `helios-syntax`
crate); the spec classifies whitespace and comments as trivia. -/
def SyntaxKind.is_trivia : SyntaxKind → Bool
  | .Whitespace => true
  | .LineComment => true
  | _ => false

/-- Modelled from the spec: a lexed token as the sink consumes it
(`Token { kind, text }` of the absent `helios-parser` lexer; the sink reads
only these two fields). -/
structure Token where
  kind : SyntaxKind
  text : String
deriving DecidableEq

/-- Modelled from the spec: the parser's event log entries (the
`helios-parser` event module is absent; the spec's data model lists exactly
these four variants, with `StartNode` carrying a deferred
forward-parent offset). -/
inductive Event where
  | StartNode (kind : SyntaxKind) (forward_parent : Option Nat)
  | AddToken (kind : SyntaxKind) (text : String)
  | FinishNode
  | Placeholder
deriving DecidableEq

/-- An immutable green tree node or leaf token (the rowan `GreenNode`
the sink builds, modelled structurally). -/
inductive GreenTree where
  | node (kind : SyntaxKind) (children : List GreenTree)
  | token (kind : SyntaxKind) (text : String)

/-- The state of rowan's `GreenNodeBuilder`: a stack of still-open nodes
(innermost first) above a list of completed top-level children. -/
structure Builder where
  stack : List (SyntaxKind × List GreenTree)
  root : List GreenTree

/-- A fresh `GreenNodeBuilder`. -/
def Builder.new : Builder := ⟨[], []⟩

/-- Append a finished child (token or node) to the innermost open node,
or to the top level when no node is open. -/
def Builder.push (b : Builder) (c : GreenTree) : Builder :=
  match b.stack with
  | [] => { b with root := b.root ++ [c] }
  | (k, cs) :: rest => { b with stack := (k, cs ++ [c]) :: rest }

/-- `GreenNodeBuilder::start_node`: open a new innermost node. -/
def Builder.start_node (b : Builder) (kind : SyntaxKind) : Builder :=
  { b with stack := (kind, []) :: b.stack }

/-- `GreenNodeBuilder::finish_node`: close the innermost open node and make
it a child of the enclosing one; with no node open, the builder aborts
(`none`). -/
def Builder.finish_node (b : Builder) : Option Builder :=
  match b.stack with
  | [] => none
  | (k, cs) :: rest => some (Builder.push { b with stack := rest } (.node k cs))

/-- `GreenNodeBuilder::finish`: all nodes must be closed and exactly one
root child built, which becomes the tree; anything else aborts (`none`). -/
def Builder.finish (b : Builder) : Option GreenTree :=
  match b.stack, b.root with
  | [], [t] => some t
  | _, _ => none

/-- The sink's state (`Sink` in `helios-parser/src/parser/sink.rs`):
the original token slice, a cursor into it, the event log (mutated in
place by tombstoning), and the tree builder. -/
structure Sink where
  tokens : List Token
  cursor : Nat
  events : List Event
  builder : Builder

/-- `Sink::new`. -/
def Sink.new (tokens : List Token) (events : List Event) : Sink :=
  ⟨tokens, 0, events, Builder.new⟩

/-- `Sink::token`: append a leaf to the builder and advance the token
cursor. -/
def Sink.token (s : Sink) (kind : SyntaxKind) (text : String) : Sink :=
  { s with builder := s.builder.push (.token kind text), cursor := s.cursor + 1 }

/-- The loop body of `Sink::eat_trivia`, recursing on the count of tokens
left beyond the cursor (which bounds the loop: the cursor advances by one
per trivia token appended). -/
def Sink.eatTriviaGo : Nat → Sink → Sink
  | 0, s => s
  | fuel + 1, s =>
    match s.tokens.get? s.cursor with
    | some tok =>
      if tok.kind.is_trivia then
        Sink.eatTriviaGo fuel (s.token tok.kind tok.text)
      else s
    | none => s

/-- `Sink::eat_trivia`: append the pending trivia tokens at the cursor,
stopping at the first significant token or the end of the stream (at most
`tokens.length - cursor` steps can append anything, which makes the
recursion structural). -/
def Sink.eat_trivia (s : Sink) : Sink :=
  Sink.eatTriviaGo (s.tokens.length - s.cursor) s

/-- How many live `StartNode` events remain in a log (the walk's
termination measure: every visited `StartNode` is tombstoned). -/
def startCount (events : List Event) : Nat :=
  events.countP fun e => match e with | .StartNode _ _ => true | _ => false

/-- The loop body of the forward-parent walk, recursing on the count of
live `StartNode` events (each iteration tombstones one, which bounds the
walk and makes the recursion structural; the fuel cases that the bound
rules out return the same results the diverging-free source would). -/
def walkChainGo : Nat → List Event → Nat → Option Nat →
    List SyntaxKind → Option (List Event × List SyntaxKind)
  | _, events, _, none, kinds => some (events, kinds)
  | 0, _, _, some _, _ => none
  | fuel + 1, events, idx, some off, kinds =>
    match events.get? (idx + off) with
    | some (.StartNode kind fp') =>
      walkChainGo fuel (events.set (idx + off) .Placeholder) (idx + off)
        fp' (kinds ++ [kind])
    | some _ => none
    | none => none

/-- The forward-parent walk inside `Sink::finish`: starting from the event
at `idx` (already tombstoned), follow `forward_parent` offsets, tombstone
each visited `StartNode` in place and accumulate its kind; a chain that
leaves the log or lands on anything but a live `StartNode` is the
`unreachable!`/index-out-of-bounds abort (`none`). -/
def walkChain (events : List Event) (idx : Nat) (fp : Option Nat)
    (kinds : List SyntaxKind) : Option (List Event × List SyntaxKind) :=
  walkChainGo (startCount events + 1) events idx fp kinds

/-- One iteration of the `Sink::finish` loop: `mem::replace` the event at
`i` with a `Placeholder`, then process the removed event. -/
def Sink.step (s : Sink) (i : Nat) : Option Sink :=
  match s.events.get? i with
  | none => none
  | some ev =>
    let s' := { s with events := s.events.set i .Placeholder }
    match ev with
    | .StartNode kind forward_parent =>
      match walkChain s'.events i forward_parent [kind] with
      | some (events', kinds) =>
        some { s' with
               events := events',
               builder := kinds.reverse.foldl Builder.start_node s'.builder }
      | none => none
    | .AddToken kind text => some (s'.token kind text)
    | .FinishNode =>
      match s'.builder.finish_node with
      | some b => some { s' with builder := b }
      | none => none
    | .Placeholder => some s'

/-- The loop body of `Sink::finish`, recursing on the count of indices
left below `n` (which makes the loop structural). -/
def Sink.runFromGo : Nat → Nat → Sink → Nat → Option Sink
  | 0, n, s, i => if i < n then none else some s
  | fuel + 1, n, s, i =>
    if i < n then
      match s.step i with
      | some s' => Sink.runFromGo fuel n s'.eat_trivia (i + 1)
      | none => none
    else some s

/-- The `for i in 0..self.events.len()` loop of `Sink::finish`: process the
event at each index in order, eating pending trivia after every event. -/
def Sink.runFrom (n : Nat) (s : Sink) (i : Nat) : Option Sink :=
  Sink.runFromGo (n - i) n s i

/-- `Sink::finish`: replay the event log and finish the builder. -/
def Sink.finish (s : Sink) : Option GreenTree :=
  match Sink.runFrom s.events.length s 0 with
  | some s' => s'.builder.finish
  | none => none

/-- Build the tree for a token stream and an event log
(`Sink::new(...).finish()`). -/
def sinkFinish (tokens : List Token) (events : List Event) : Option GreenTree :=
  (Sink.new tokens events).finish

end HeliosSink

namespace HeliosSink

mutual
/-- The texts of all leaf tokens of a tree, in tree order. -/
def GreenTree.leaves : GreenTree → List String
  | .token _ text => [text]
  | .node _ children => leavesList children

/-- The texts of all leaf tokens of a forest, in order. -/
def leavesList : List GreenTree → List String
  | [] => []
  | c :: cs => c.leaves ++ leavesList cs
end

/-- The leaf texts currently held by a builder, in tree order: completed
top-level children first, then the children of each open node from
outermost to innermost. -/
def stackLeaves : List (SyntaxKind × List GreenTree) → List String
  | [] => []
  | (_, cs) :: rest => stackLeaves rest ++ leavesList cs

/-- All leaf texts a builder holds, in emission order. -/
def builderLeaves (b : Builder) : List String :=
  leavesList b.root ++ stackLeaves b.stack

/-- The significant (non-trivia) tokens of a stream, in order. -/
def sigTokens (tokens : List Token) : List Token :=
  tokens.filter fun t => !t.kind.is_trivia

/-- The `(kind, text)` payloads of the `AddToken` events of a log, in
order. -/
def addToks : List Event → List (SyntaxKind × String)
  | [] => []
  | .AddToken kind text :: es => (kind, text) :: addToks es
  | _ :: es => addToks es

mutual
/-- Spans of the leaves of a tree laid out from byte offset `start`:
each leaf contributes `(kind, offset, width)`. -/
def GreenTree.leafSpans : GreenTree → Nat → List (SyntaxKind × Nat × Nat) × Nat
  | .token kind text, start => ([(kind, start, text.length)], start + text.length)
  | .node _ children, start => leafSpansList children start

/-- Spans of the leaves of a forest laid out from byte offset `start`. -/
def leafSpansList : List GreenTree → Nat → List (SyntaxKind × Nat × Nat) × Nat
  | [], start => ([], start)
  | c :: cs, start =>
    let (l₁, mid) := c.leafSpans start
    let (l₂, stop) := leafSpansList cs mid
    (l₁ ++ l₂, stop)
end

end HeliosSink

namespace Koi

/-- A half-open source span `{ start, length }` (`TextSpan` of the absent
`koi-syntax` source module; the commented expected tree in
`koi-syntax/src/parser.rs` constructs it as `TextSpan::new(start, len)`). -/
structure TextSpan where
  start : Nat
  length : Nat
deriving DecidableEq

/-- `TextSpan::zero_width(pos)`: an empty span at `pos`. -/
def TextSpan.zero_width (pos : Nat) : TextSpan := ⟨pos, 0⟩

/-- Reserved identifiers, from `koi-parser/src/token.rs` (the `koi-syntax`
token module is absent; the parser additionally matches `Let`, `If`,
`Else` and `Unimplemented`, all present there). `Type` carries a prime
because Lean reserves the bare word. -/
inductive Keyword where
  | And
  | Def
  | Do
  | Else
  | False
  | If
  | Let
  | Match
  | Not
  | Or
  | Then
  | True
  | Type'
  | Unimplemented
  | Using
  | With
deriving DecidableEq

/-- Symbols, from `koi-parser/src/token.rs`, plus the arrow symbols
(`LThinArrow` appears in `infix_binding_power` and the arrow kinds in the
`koi-syntax` kind table, so the absent `koi-syntax` symbol enum has
them). -/
inductive Symbol where
  | Ampersand
  | Asterisk
  | At
  | Bang
  | BangEq
  | Caret
  | Colon
  | Comma
  | Dollar
  | Dot
  | EnDash
  | EmDash
  | Eq
  | Minus
  | Percent
  | Plus
  | Pound
  | Question
  | Semicolon
  | Sterling
  | Tilde
  | Vertical
  | ForwardSlash
  | BackSlash
  | Lt
  | LtEq
  | Gt
  | GtEq
  | LThinArrow
  | RThinArrow
  | ThickArrow
  | LBrace
  | RBrace
  | LBracket
  | RBracket
  | LParen
  | RParen
deriving DecidableEq

/-- Numeric literal bases (`NumericBase` in `koi-parser/src/token.rs`). -/
inductive NumericBase where
  | Binary
  | Octal
  | Hexadecimal
  | Decimal
deriving DecidableEq

/-- Literals, from `koi-parser/src/token.rs`; the parser only ever matches
`Literal(_)` as a whole. The `Float` variant is elided (its `f64` payload
is floating point, and no claim inspects literal payloads). -/
inductive Literal where
  | Bool (b : Bool)
  | Char (c : Char)
  | Int (base : NumericBase) (value : Int)
  | Str (s : String)
  | FStr (s : String)
deriving DecidableEq

/-- Token kinds as matched by `koi-syntax/src/parser.rs` (its own token
module is absent from the sources; the variants and payload shapes follow
`koi-parser/src/token.rs` and the spec's token data model, with the token
text held by `RawSyntaxToken` rather than by the kind). The lexer-error
payload is kept opaque as a message string. -/
inductive TokenKind where
  | Identifier
  | Keyword (k : Keyword)
  | Literal (l : Literal)
  | Symbol (s : Symbol)
  | LineComment (is_doc_comment : Bool)
  | Whitespace
  | Newline
  | Eof
  | Error (e : String)
  | Unknown (c : Char)
deriving DecidableEq

/-- `RawSyntaxToken { kind, text }` (`koi-syntax/src/tree/token.rs`). -/
structure RawSyntaxToken where
  kind : TokenKind
  text : String
deriving DecidableEq

/-- `SyntaxToken { raw, span }` (`koi-syntax/src/tree/token.rs`; the
shared `Rc` is modelled by plain ownership). -/
structure SyntaxToken where
  raw : RawSyntaxToken
  span : TextSpan
deriving DecidableEq

/-- `SyntaxToken::kind()`. -/
def SyntaxToken.kind (t : SyntaxToken) : TokenKind := t.raw.kind

/-- `SyntaxToken::missing(raw, span)`: a constructed token (empty text,
zero-width span at the call sites). -/
def SyntaxToken.missing (raw : RawSyntaxToken) (span : TextSpan) : SyntaxToken :=
  ⟨raw, span⟩

/-- Modelled from the spec: the lexer the parser drives
(`koi-syntax/src/lexer.rs` is absent). Per the external-interface section
it hands out an ordered, finite sequence of tokens ending logically at an
implicit end-of-file, so it is a list of remaining tokens plus the byte
position reached so far; at the end it keeps yielding zero-width `Eof`
tokens at the current position. -/
structure Lexer where
  rem : List SyntaxToken
  pos : Nat
deriving DecidableEq

/-- Modelled from the spec: `Lexer::next_token` — the next token of the
stream (advancing the position to its span's end), or a fresh zero-width
`Eof` token once the stream is exhausted. -/
def Lexer.next_token (lx : Lexer) : SyntaxToken × Lexer :=
  match lx.rem with
  | [] => (⟨⟨.Eof, ""⟩, TextSpan.zero_width lx.pos⟩, lx)
  | t :: ts => (t, ⟨ts, t.span.start + t.span.length⟩)

/-- Modelled from the spec: `Lexer::is_at_end` — no tokens remain. -/
def Lexer.is_at_end (lx : Lexer) : Bool := lx.rem.isEmpty

/-- Modelled from the spec: `Lexer::current_pos` — the byte position the
lexer has reached. -/
def Lexer.current_pos (lx : Lexer) : Nat := lx.pos

/-- The parser state (`Parser` in `koi-syntax/src/parser.rs`): the lexer
plus the one-token peek buffer. -/
structure Parser where
  lexer : Lexer
  peeked_token : Option SyntaxToken
deriving DecidableEq

/-- `Parser::with(lexer)`. -/
def Parser.with' (lexer : Lexer) : Parser := ⟨lexer, none⟩

/-- `Parser::peek`: fill the peek buffer from the lexer if it is empty and
return its content without consuming it. -/
def Parser.peek (p : Parser) : Option SyntaxToken × Parser :=
  match p.peeked_token with
  | none =>
    let (t, lx) := p.lexer.next_token
    (some t, ⟨lx, some t⟩)
  | some t => (some t, p)

/-- `Parser::next_token`: take the peeked token if present, else pull from
the lexer. -/
def Parser.next_token (p : Parser) : SyntaxToken × Parser :=
  match p.peeked_token with
  | some t => (t, { p with peeked_token := none })
  | none =>
    let (t, lx) := p.lexer.next_token
    (t, { p with lexer := lx })

/-- `Parser::check`: whether the next token has the expected kind. -/
def Parser.check (p : Parser) (kind : TokenKind) : Bool × Parser :=
  match p.peek with
  | (some token, p') => (token.kind = kind, p')
  | (none, p') => (false, p')

/-- `Parser::consume`: consume the next token when it has the expected
kind, otherwise leave it and produce a zero-width `Missing`-style token of
that kind at the current lexer position (read before peeking); peeking
`None` would abort, modelled by `none`. -/
def Parser.consume (p : Parser) (kind : TokenKind) :
    Option (SyntaxToken × Parser) :=
  let pos := p.lexer.current_pos
  match p.peek with
  | (some token, p') =>
    if token.kind = kind then some p'.next_token
    else some (SyntaxToken.missing ⟨kind, ""⟩ (TextSpan.zero_width pos), p')
  | (none, _) => none

/-- `Parser::consume_optional`: consume the next token only when it has
the expected kind; report whether it did. -/
def Parser.consume_optional (p : Parser) (kind : TokenKind) : Bool × Parser :=
  match p.check kind with
  | (true, p') => (true, p'.next_token.2)
  | (false, p') => (false, p')

end Koi

namespace Koi

mutual
/-- The expression nodes `koi-syntax/src/parser.rs` constructs (the
`Box<dyn ExpressionNode>` structs of the absent `tree/node/expr.rs`,
closed into one variant type; field names and order follow the struct
literals in the parser). -/
inductive Expr where
  | LocalBindingExpressionNode (let_keyword : SyntaxToken)
      (identifier : SyntaxToken) (equal_symbol : SyntaxToken)
      (expression : Expr)
  | IfExpressionNode (if_keyword : SyntaxToken) (condition : Expr)
      (open_brace : SyntaxToken) (expression : Expr)
      (close_brace : SyntaxToken)
      (else_clause : Option ElseClauseExpressionNode)
  | BinaryExpressionNode (operator : SyntaxToken) (lhs : Expr) (rhs : Expr)
  | UnaryExpressionNode (operator : SyntaxToken) (operand : Expr)
  | UnexpectedTokenNode (token : SyntaxToken)
  | IdentifierExpressionNode (identifier : SyntaxToken)
  | UnimplementedExpressionNode (token : SyntaxToken)
  | LiteralExpressionNode (literal : SyntaxToken)
  | ErrorExpressionNode (token : SyntaxToken)

/-- `ElseClauseExpressionNode`, as constructed by `parse_else_clause`. -/
inductive ElseClauseExpressionNode where
  | mk (else_keyword : SyntaxToken) (open_brace : SyntaxToken)
      (expression : Expr) (close_brace : SyntaxToken)
end

/-- A top-level node (`Node`): the `Eof` marker or an expression
(`parse_program` produces no declarations). -/
inductive Node where
  | Eof
  | ExpressionNode (e : Expr)

/-- `SyntaxTree(Vec<Node>)`. -/
structure SyntaxTree where
  children : List Node

/-- `prefix_binding_power`: only `-` and `!` may start a unary
expression, both with power 9. -/
def prefix_binding_power (symbol : Symbol) : Option Nat :=
  match symbol with
  | .Minus | .Bang => some 9
  | _ => none

/-- `infix_binding_power`: the `(left, right)` binding-power table of the
infix symbols. -/
def infix_binding_power (symbol : Symbol) : Option (Nat × Nat) :=
  match symbol with
  | .Semicolon => some (1, 2)
  | .LThinArrow => some (3, 2)
  | .Eq | .BangEq => some (4, 3)
  | .Lt | .Gt | .LtEq | .GtEq => some (5, 6)
  | .Plus | .Minus => some (7, 8)
  | .Asterisk | .ForwardSlash => some (9, 10)
  | _ => none

mutual

/-- `Parser::parse_expression`, with a fuel argument making the mutual
recursion structural (`none` means the fuel ran out or the code aborted;
the adequacy theorem below shows fuel linear in the token count always
suffices). Dispatches on `let`/`if`, else parses a binary expression with
minimum precedence 0. -/
def parse_expression (fuel : Nat) (p : Parser) : Option (Expr × Parser) :=
  match fuel with
  | 0 => none
  | fuel + 1 =>
    match p.check (.Keyword .Let) with
    | (true, p) => parse_let_expression fuel p
    | (false, p) =>
      match p.check (.Keyword .If) with
      | (true, p) => parse_if_expression fuel p
      | (false, p) => parse_binary_expression fuel 0 p

/-- `Parser::parse_let_expression`: `let` keyword, required identifier,
required `=`, then the bound expression (field order is evaluation
order). -/
def parse_let_expression (fuel : Nat) (p : Parser) : Option (Expr × Parser) :=
  match fuel with
  | 0 => none
  | fuel + 1 =>
    let (let_keyword, p) := p.next_token
    match p.consume .Identifier with
    | none => none
    | some (identifier, p) =>
      match p.consume (.Symbol .Eq) with
      | none => none
      | some (equal_symbol, p) =>
        match parse_expression fuel p with
        | none => none
        | some (expression, p) =>
          some (.LocalBindingExpressionNode let_keyword identifier
                  equal_symbol expression, p)

/-- `Parser::parse_if_expression`. -/
def parse_if_expression (fuel : Nat) (p : Parser) : Option (Expr × Parser) :=
  match fuel with
  | 0 => none
  | fuel + 1 =>
    let (if_keyword, p) := p.next_token
    match parse_expression fuel p with
    | none => none
    | some (condition, p) =>
      match p.consume (.Symbol .LBrace) with
      | none => none
      | some (open_brace, p) =>
        match parse_expression fuel p with
        | none => none
        | some (expression, p) =>
          match p.consume (.Symbol .RBrace) with
          | none => none
          | some (close_brace, p) =>
            match p.check (.Keyword .Else) with
            | (true, p) =>
              match parse_else_clause fuel p with
              | none => none
              | some (else_clause, p) =>
                some (.IfExpressionNode if_keyword condition open_brace
                        expression close_brace (some else_clause), p)
            | (false, p) =>
              some (.IfExpressionNode if_keyword condition open_brace
                      expression close_brace none, p)

/-- `Parser::parse_else_clause`. -/
def parse_else_clause (fuel : Nat) (p : Parser) :
    Option (ElseClauseExpressionNode × Parser) :=
  match fuel with
  | 0 => none
  | fuel + 1 =>
    let (else_keyword, p) := p.next_token
    match p.consume (.Symbol .LBrace) with
    | none => none
    | some (open_brace, p) =>
      match parse_expression fuel p with
      | none => none
      | some (expression, p) =>
        match p.consume (.Symbol .RBrace) with
        | none => none
        | some (close_brace, p) =>
          some (.mk else_keyword open_brace expression close_brace, p)

/-- `Parser::parse_binary_expression`: parse a unary expression, then run
the precedence-climbing operator loop on it. -/
def parse_binary_expression (fuel : Nat) (min_precedence : Nat) (p : Parser) :
    Option (Expr × Parser) :=
  match fuel with
  | 0 => none
  | fuel + 1 =>
    match parse_unary_expression fuel p with
    | none => none
    | some (lhs, p) => binary_loop fuel lhs min_precedence p

/-- The `loop` inside `parse_binary_expression`: peek at the next token;
stop unless it is an infix symbol whose left power is at least
`min_precedence`; otherwise consume the operator, parse the right-hand
side with the operator's right power, wrap, and continue. -/
def binary_loop (fuel : Nat) (lhs : Expr) (min_precedence : Nat)
    (p : Parser) : Option (Expr × Parser) :=
  match fuel with
  | 0 => none
  | fuel + 1 =>
    match p.peek with
    | (some token, p) =>
      match token.kind with
      | .Symbol symbol =>
        match infix_binding_power symbol with
        | some (left_precedence, right_precedence) =>
          if left_precedence < min_precedence then some (lhs, p)
          else
            let (operator, p) := p.next_token
            match parse_binary_expression fuel right_precedence p with
            | none => none
            | some (rhs, p) =>
              binary_loop fuel (.BinaryExpressionNode operator lhs rhs)
                min_precedence p
        | none => some (lhs, p)
      | _ => some (lhs, p)
    | (none, p) => some (lhs, p)

/-- `Parser::parse_unary_expression`: a peeked symbol with a prefix
binding power starts a unary expression; a peeked symbol without one is
consumed and an `UnexpectedTokenNode` is built — around the token the
*lexer* yields next, bypassing the peek buffer, exactly as the source
does; anything else falls through to `parse_primary`. -/
def parse_unary_expression (fuel : Nat) (p : Parser) :
    Option (Expr × Parser) :=
  match fuel with
  | 0 => none
  | fuel + 1 =>
    match p.peek with
    | (some token0, p) =>
      match token0.kind with
      | .Symbol symbol =>
        let (token, p) := p.next_token
        match prefix_binding_power symbol with
        | some right_precedence =>
          match parse_binary_expression fuel right_precedence p with
          | none => none
          | some (operand, p) =>
            some (.UnaryExpressionNode token operand, p)
        | none =>
          let (t, lx) := p.lexer.next_token
          some (.UnexpectedTokenNode t, { p with lexer := lx })
      | _ => parse_primary fuel p
    | (none, p) => parse_primary fuel p

/-- `Parser::parse_primary`: consume one token and classify it; anything
that cannot start a primary expression becomes an
`UnexpectedTokenNode`. -/
def parse_primary (fuel : Nat) (p : Parser) : Option (Expr × Parser) :=
  match fuel with
  | 0 => none
  | _ + 1 =>
    let (token, p) := p.next_token
    match token.kind with
    | .Identifier => some (.IdentifierExpressionNode token, p)
    | .Keyword .Unimplemented => some (.UnimplementedExpressionNode token, p)
    | .Literal _ => some (.LiteralExpressionNode token, p)
    | .Error _ => some (.ErrorExpressionNode token, p)
    | _ => some (.UnexpectedTokenNode token, p)

end

/-- `Parser::parse_program`: an `Eof` node when the next token is `Eof`,
otherwise one expression. -/
def parse_program (fuel : Nat) (p : Parser) : Option (Node × Parser) :=
  match fuel with
  | 0 => none
  | fuel + 1 =>
    match p.consume_optional .Eof with
    | (true, p) => some (.Eof, p)
    | (false, p) =>
      match parse_expression fuel p with
      | none => none
      | some (e, p) => some (.ExpressionNode e, p)

/-- The `while !self.lexer.is_at_end()` loop of `Parser::parse`,
accumulating top-level nodes. -/
def parse_loop (fuel : Nat) (p : Parser) (nodes : List Node) :
    Option (SyntaxTree × Parser) :=
  match fuel with
  | 0 => none
  | fuel + 1 =>
    if p.lexer.is_at_end then some (⟨nodes⟩, p)
    else
      match parse_program fuel p with
      | none => none
      | some (n, p) => parse_loop fuel p (nodes ++ [n])

/-- The fuel budget `Parser::parse` is run with: linear in the token
count (the adequacy proof shows it always suffices, which is the
termination bound the spec claims). -/
def parseFuel (tokens : List SyntaxToken) : Nat := 4 * tokens.length + 8

/-- `Parser::parse` on a lexed token stream: run the top-level loop from a
fresh parser over the stream. -/
def parse (tokens : List SyntaxToken) : Option SyntaxTree :=
  match parse_loop (parseFuel tokens) (Parser.with' ⟨tokens, 0⟩) [] with
  | some (tree, _) => some tree
  | none => none

end Koi

namespace Koi

/-- Tokens still ahead of the parser: a token sitting in the peek buffer
counts unless it is an `Eof` token (consuming an `Eof` does not shrink the
stream, and the lexer synthesizes fresh ones forever at the end). The
parser's fuel needs are linear in this measure. -/
def tokenWeight (t : SyntaxToken) : Nat :=
  match t.kind with
  | .Eof => 0
  | _ => 1

/-- The parser's progress measure: remaining lexer tokens plus the weight
of the peek buffer. No parser operation increases it. -/
def pMeasure (p : Parser) : Nat :=
  p.lexer.rem.length +
    (match p.peeked_token with
     | some t => tokenWeight t
     | none => 0)

/-- The top-level loop's progress measure: each `parse_program` call
strictly decreases it (either a token is consumed, or a buffered `Eof`
token is drained). -/
def loopMeasure (p : Parser) : Nat :=
  2 * pMeasure p +
    (match p.peeked_token with
     | some t => 1 - tokenWeight t
     | none => 0)

/-- A significant token for the concrete test streams: its kind, text and
source offset. -/
def tk (kind : TokenKind) (text : String) (start : Nat) : SyntaxToken :=
  ⟨⟨kind, text⟩, ⟨start, text.length⟩⟩

/-- The token stream the lexer produces for `"a + b * c"`. -/
def plusTimesTokens : List SyntaxToken :=
  [tk .Identifier "a" 0, tk (.Symbol .Plus) "+" 2, tk .Identifier "b" 4,
   tk (.Symbol .Asterisk) "*" 6, tk .Identifier "c" 8]

/-- The token stream the lexer produces for `"a - b - c"`. -/
def minusMinusTokens : List SyntaxToken :=
  [tk .Identifier "a" 0, tk (.Symbol .Minus) "-" 2, tk .Identifier "b" 4,
   tk (.Symbol .Minus) "-" 6, tk .Identifier "c" 8]

/-- The token stream the lexer produces for `"+ a"`: a symbol that cannot
start a primary expression, followed by an identifier. -/
def plusIdentTokens : List SyntaxToken :=
  [tk (.Symbol .Plus) "+" 0, tk .Identifier "a" 2]

/-- The token stream the lexer produces for `"let foo"`. -/
def letFooTokens : List SyntaxToken :=
  [tk (.Keyword .Let) "let" 0, tk .Identifier "foo" 4]

end Koi

namespace HeliosSink

/-- The token stream of `"// comment\nlet a = 10\n"` (trivia included),
as the sink receives it. -/
def commentBindingTokens : List Token :=
  [⟨.LineComment, "// comment"⟩, ⟨.Whitespace, "\n"⟩, ⟨.Kwd_Let, "let"⟩,
   ⟨.Whitespace, " "⟩, ⟨.Identifier, "a"⟩, ⟨.Whitespace, " "⟩,
   ⟨.Sym_Eq, "="⟩, ⟨.Whitespace, " "⟩, ⟨.Lit_Integer, "10"⟩,
   ⟨.Whitespace, "\n"⟩]

/-- Modelled from the spec: the event log the (absent) Helios parser emits
for `"// comment\nlet a = 10\n"` — a root node wrapping one global
binding: `let` keyword, identifier, `=`, then a literal expression; only
significant tokens appear, in order. -/
def commentBindingEvents : List Event :=
  [.StartNode .Root none, .StartNode .Dec_GlobalBinding none,
   .AddToken .Kwd_Let "let", .AddToken .Identifier "a",
   .AddToken .Sym_Eq "=", .StartNode .Exp_Literal none,
   .AddToken .Lit_Integer "10", .FinishNode, .FinishNode, .FinishNode]

/-- The token stream of `"let foo"` (trivia included). -/
def letFooSinkTokens : List Token :=
  [⟨.Kwd_Let, "let"⟩, ⟨.Whitespace, " "⟩, ⟨.Identifier, "foo"⟩]

/-- Modelled from the spec: the event log the (absent) Helios parser emits
for `"let foo"` under the recovery policy — `global_binding` bumps `let`,
`expect` finds the identifier, `expect(Sym_Eq)` finds nothing and records
a zero-width missing `=` token at the cursor, and the expression parser at
end of input produces a zero-width missing-expression node there. -/
def letFooEvents : List Event :=
  [.StartNode .Root none, .StartNode .Dec_GlobalBinding none,
   .AddToken .Kwd_Let "let", .AddToken .Identifier "foo",
   .AddToken .Sym_Eq "", .StartNode .Exp_MissingExpression none,
   .FinishNode, .FinishNode, .FinishNode]

/-- The token stream of `"let foo = bar"` (trivia included), from the
expected-tree test in `helios-parser/src/grammar/decl.rs`. -/
def letFooBarTokens : List Token :=
  [⟨.Kwd_Let, "let"⟩, ⟨.Whitespace, " "⟩, ⟨.Identifier, "foo"⟩,
   ⟨.Whitespace, " "⟩, ⟨.Sym_Eq, "="⟩, ⟨.Whitespace, " "⟩,
   ⟨.Identifier, "bar"⟩]

/-- Modelled from the spec: the event log of the (absent) Helios parser
for `"let foo = bar"` (root, global binding, variable reference). -/
def letFooBarEvents : List Event :=
  [.StartNode .Root none, .StartNode .Dec_GlobalBinding none,
   .AddToken .Kwd_Let "let", .AddToken .Identifier "foo",
   .AddToken .Sym_Eq "=", .StartNode .Exp_VariableRef none,
   .AddToken .Identifier "bar", .FinishNode, .FinishNode, .FinishNode]

/-- The token stream of `"a + b"` (trivia included). -/
def aPlusBTokens : List Token :=
  [⟨.Identifier, "a"⟩, ⟨.Whitespace, " "⟩, ⟨.Sym_Plus, "+"⟩,
   ⟨.Whitespace, " "⟩, ⟨.Identifier, "b"⟩]

/-- Modelled from the spec: the event log of the (absent) Helios parser
for `"a + b"`, exercising a forward parent: the variable reference `a`
was completed before the binary expression was discovered, so its
`StartNode` carries `forward_parent = some 3`, pointing at the
binary-expression `StartNode` inserted later by `precede()`. -/
def aPlusBEvents : List Event :=
  [.StartNode .Root none, .StartNode .Exp_VariableRef (some 3),
   .AddToken .Identifier "a", .FinishNode, .StartNode .Exp_Binary none,
   .AddToken .Sym_Plus "+", .StartNode .Exp_VariableRef none,
   .AddToken .Identifier "b", .FinishNode, .FinishNode, .FinishNode]


/-- The children of the root of a built tree (empty when the build failed
or produced a bare token). -/
def rootChildren : Option GreenTree → List GreenTree
  | some (.node _ cs) => cs
  | _ => []

/-- The tree the sink builds for `"let foo = bar"` (matching the expected
tree in the `helios-parser/src/grammar/decl.rs` test). -/
def letFooBarTree : GreenTree :=
  .node .Root
    [.node .Dec_GlobalBinding
      [.token .Kwd_Let "let", .token .Whitespace " ",
       .token .Identifier "foo", .token .Whitespace " ",
       .token .Sym_Eq "=", .token .Whitespace " ",
       .node .Exp_VariableRef [.token .Identifier "bar"]]]

end HeliosSink

namespace HeliosDiag

/-- C8: the `Severity` order satisfies `Note < Warning < Error < Bug`
pairwise and transitively, and every severity drawn from a collection
containing only `Note` and `Warning` compares strictly less than
`Error`. -/
theorem severity_totally_ordered :
    (sevLt .Note .Warning = true ∧ sevLt .Warning .Error = true ∧
     sevLt .Error .Bug = true ∧ sevLt .Note .Error = true ∧
     sevLt .Note .Bug = true ∧ sevLt .Warning .Bug = true) ∧
    (∀ a b c : Severity,
      sevLt a b = true → sevLt b c = true → sevLt a c = true) ∧
    (∀ l : List Severity, (∀ s ∈ l, s = .Note ∨ s = .Warning) →
      ∀ s ∈ l, sevLt s .Error = true) := by
  refine ⟨by decide, ?_, ?_⟩
  · intro a b c h1 h2
    simp only [sevLt, decide_eq_true_eq] at *
    omega
  · intro l h s hs
    rcases h s hs with rfl | rfl <;> decide

/-- C8 witness: the order theorem applied to the concrete collection
`[Note, Note, Warning]` (the repository's own test vector). -/
theorem severity_totally_ordered_witness :
    sevLt Severity.Warning Severity.Error = true :=
  severity_totally_ordered.2.2 [Severity.Note, Severity.Note, Severity.Warning]
    (by decide) Severity.Warning (by decide)

/-- C9: each `Diagnostic` builder method returns a diagnostic whose named
field holds the given value and whose every other field equals the
corresponding field of the receiver — builder construction is pure, and a
diagnostic value never mutates. -/
theorem diagnostic_builder_frame {F : Type} (d : Diagnostic F) (sev : Severity)
    (ttl : String) (desc : FormattedText) (msg : FormattedText)
    (loc : Location F) (hnt : FormattedText) :
    ((d.severity' sev).severity = sev ∧ (d.severity' sev).location = d.location ∧
     (d.severity' sev).title = d.title ∧
     (d.severity' sev).description = d.description ∧
     (d.severity' sev).message = d.message ∧ (d.severity' sev).hint = d.hint) ∧
    ((d.title' ttl).title = ttl ∧ (d.title' ttl).location = d.location ∧
     (d.title' ttl).severity = d.severity ∧
     (d.title' ttl).description = d.description ∧
     (d.title' ttl).message = d.message ∧ (d.title' ttl).hint = d.hint) ∧
    ((d.description' desc).description = some desc ∧
     (d.description' desc).location = d.location ∧
     (d.description' desc).severity = d.severity ∧
     (d.description' desc).title = d.title ∧
     (d.description' desc).message = d.message ∧
     (d.description' desc).hint = d.hint) ∧
    ((d.message' msg).message = msg ∧ (d.message' msg).location = d.location ∧
     (d.message' msg).severity = d.severity ∧ (d.message' msg).title = d.title ∧
     (d.message' msg).description = d.description ∧
     (d.message' msg).hint = d.hint) ∧
    ((d.location' loc).location = loc ∧ (d.location' loc).severity = d.severity ∧
     (d.location' loc).title = d.title ∧
     (d.location' loc).description = d.description ∧
     (d.location' loc).message = d.message ∧ (d.location' loc).hint = d.hint) ∧
    ((d.hint' hnt).hint = some hnt ∧ (d.hint' hnt).location = d.location ∧
     (d.hint' hnt).severity = d.severity ∧ (d.hint' hnt).title = d.title ∧
     (d.hint' hnt).description = d.description ∧
     (d.hint' hnt).message = d.message) :=
  ⟨⟨rfl, rfl, rfl, rfl, rfl, rfl⟩, ⟨rfl, rfl, rfl, rfl, rfl, rfl⟩,
   ⟨rfl, rfl, rfl, rfl, rfl, rfl⟩, ⟨rfl, rfl, rfl, rfl, rfl, rfl⟩,
   ⟨rfl, rfl, rfl, rfl, rfl, rfl⟩, ⟨rfl, rfl, rfl, rfl, rfl, rfl⟩⟩

end HeliosDiag

namespace KoiLang

/-- C10: for every `SyntaxKind`, converting to a raw kind and back is the
identity, and `kind_from_raw`'s assertion (`raw <= Root as u16`, whose
failure would be `none`) never fires on such a round trip. -/
theorem kind_raw_roundtrip (k : SyntaxKind) :
    kind_from_raw (kind_to_raw k) = some k := by
  cases k <;> rfl

end KoiLang

namespace HeliosSink

theorem leavesList_append (a b : List GreenTree) :
    leavesList (a ++ b) = leavesList a ++ leavesList b := by
  induction a with
  | nil => simp [leavesList]
  | cons c cs ih => simp [leavesList, ih]

theorem builderLeaves_push (b : Builder) (c : GreenTree) :
    builderLeaves (b.push c) = builderLeaves b ++ c.leaves := by
  cases b with
  | mk stack root =>
    cases stack with
    | nil =>
      simp [Builder.push, builderLeaves, leavesList_append, stackLeaves,
        leavesList, GreenTree.leaves]
    | cons fr rest =>
      cases fr with
      | mk k cs =>
        simp [Builder.push, builderLeaves, stackLeaves, leavesList_append,
          leavesList, List.append_assoc]

theorem builderLeaves_start_node (b : Builder) (k : SyntaxKind) :
    builderLeaves (b.start_node k) = builderLeaves b := by
  cases b with
  | mk stack root =>
    simp [Builder.start_node, builderLeaves, stackLeaves, leavesList]

theorem builderLeaves_foldl_start (ks : List SyntaxKind) (b : Builder) :
    builderLeaves (ks.foldl Builder.start_node b) = builderLeaves b := by
  induction ks generalizing b with
  | nil => rfl
  | cons k ks ih => simp [List.foldl_cons, ih, builderLeaves_start_node]

theorem builderLeaves_finish_node (b b' : Builder)
    (h : b.finish_node = some b') : builderLeaves b' = builderLeaves b := by
  cases b with
  | mk stack root =>
    cases stack with
    | nil => simp [Builder.finish_node] at h
    | cons fr rest =>
      cases fr with
      | mk k cs =>
        simp only [Builder.finish_node, Option.some.injEq] at h
        subst h
        rw [builderLeaves_push]
        simp [builderLeaves, stackLeaves, GreenTree.leaves,
          List.append_assoc]

theorem finish_leaves (b : Builder) (t : GreenTree)
    (h : b.finish = some t) : t.leaves = builderLeaves b := by
  cases b with
  | mk stack root =>
    cases stack with
    | nil =>
      match root, h with
      | [t'], h =>
        simp only [Builder.finish, Option.some.injEq] at h
        subst h
        simp [builderLeaves, stackLeaves, leavesList]
    | cons fr rest => simp [Builder.finish] at h

theorem set_same (l : List Event) (i : Nat) (a : Event)
    (h : l.get? i = some a) : l.set i a = l := by
  induction l generalizing i with
  | nil => simp at h
  | cons x xs ih =>
    cases i with
    | zero => simp only [List.get?] at h; cases h; rfl
    | succ j =>
      simp only [List.get?] at h
      simp [List.set, ih j h]

theorem addToks_drop_set (l : List Event) (j : Nat) (k : SyntaxKind)
    (f : Option Nat) (h : l.get? j = some (.StartNode k f)) (m : Nat) :
    addToks ((l.set j .Placeholder).drop m) = addToks (l.drop m) := by
  induction l generalizing j m with
  | nil => simp at h
  | cons a as ih =>
    cases j with
    | zero =>
      simp only [List.get?] at h
      cases h
      cases m with
      | zero => simp [List.set, addToks]
      | succ m' => simp [List.set]
    | succ j' =>
      simp only [List.get?] at h
      cases m with
      | zero =>
        have := ih j' h 0
        simp only [List.drop] at this ⊢
        simp only [List.set]
        cases a <;> simp [addToks, this]
      | succ m' =>
        have := ih j' h m'
        simp only [List.set, List.drop]
        exact this

theorem startCount_set_succ (l : List Event) (i : Nat) (k : SyntaxKind)
    (fp : Option Nat) (h : l.get? i = some (.StartNode k fp)) :
    startCount (l.set i .Placeholder) + 1 = startCount l := by
  induction l generalizing i with
  | nil => simp at h
  | cons a as ih =>
    cases i with
    | zero =>
      simp only [List.get?] at h
      cases h
      simp [startCount, List.countP_cons]
    | succ j =>
      simp only [List.get?] at h
      have := ih j h
      simp only [List.set, startCount, List.countP_cons] at *
      omega

theorem walkChainGo_none (fuel : Nat) (ev : List Event) (idx : Nat)
    (kinds : List SyntaxKind) :
    walkChainGo fuel ev idx none kinds = some (ev, kinds) := by
  cases fuel <;> rfl

theorem walkChainGo_step (fuel : Nat) (ev : List Event) (idx off : Nat)
    (kinds : List SyntaxKind) (kind : SyntaxKind) (fp' : Option Nat)
    (hget : ev.get? (idx + off) = some (.StartNode kind fp')) :
    walkChainGo (fuel + 1) ev idx (some off) kinds =
      walkChainGo fuel (ev.set (idx + off) .Placeholder) (idx + off) fp'
        (kinds ++ [kind]) := by
  simp only [walkChainGo, hget]

theorem walkChainGo_other (fuel : Nat) (ev : List Event) (idx off : Nat)
    (kinds : List SyntaxKind) (e : Event)
    (hget : ev.get? (idx + off) = some e)
    (hne : ∀ k f, e ≠ .StartNode k f) :
    walkChainGo (fuel + 1) ev idx (some off) kinds = none := by
  cases e with
  | StartNode k f => exact absurd rfl (hne k f)
  | AddToken k t => simp only [walkChainGo, hget]
  | FinishNode => simp only [walkChainGo, hget]
  | Placeholder => simp only [walkChainGo, hget]

theorem walkChainGo_oob (fuel : Nat) (ev : List Event) (idx off : Nat)
    (kinds : List SyntaxKind) (hget : ev.get? (idx + off) = none) :
    walkChainGo (fuel + 1) ev idx (some off) kinds = none := by
  simp only [walkChainGo, hget]

theorem walkChain_none (ev : List Event) (idx : Nat)
    (kinds : List SyntaxKind) :
    walkChain ev idx none kinds = some (ev, kinds) :=
  walkChainGo_none _ ev idx kinds

theorem walkChain_some_start (ev : List Event) (idx off : Nat)
    (kinds : List SyntaxKind) (kind : SyntaxKind) (fp' : Option Nat)
    (hget : ev.get? (idx + off) = some (.StartNode kind fp')) :
    walkChain ev idx (some off) kinds =
      walkChain (ev.set (idx + off) .Placeholder) (idx + off) fp'
        (kinds ++ [kind]) := by
  unfold walkChain
  rw [← startCount_set_succ ev (idx + off) kind fp' hget]
  exact walkChainGo_step _ ev idx off kinds kind fp' hget

theorem walkChain_some_other (ev : List Event) (idx off : Nat)
    (kinds : List SyntaxKind) (e : Event)
    (hget : ev.get? (idx + off) = some e)
    (hne : ∀ k f, e ≠ .StartNode k f) :
    walkChain ev idx (some off) kinds = none :=
  walkChainGo_other _ ev idx off kinds e hget hne

theorem walkChain_oob (ev : List Event) (idx off : Nat)
    (kinds : List SyntaxKind) (hget : ev.get? (idx + off) = none) :
    walkChain ev idx (some off) kinds = none :=
  walkChainGo_oob _ ev idx off kinds hget

theorem walkChainGo_addToks (fuel : Nat) :
    ∀ (ev : List Event) (idx : Nat) (fp : Option Nat)
      (kinds : List SyntaxKind) (ev' : List Event)
      (kinds' : List SyntaxKind),
      walkChainGo fuel ev idx fp kinds = some (ev', kinds') →
      ∀ m, addToks (ev'.drop m) = addToks (ev.drop m) := by
  induction fuel with
  | zero =>
    intro ev idx fp kinds ev' kinds' h m
    cases fp with
    | none =>
      rw [walkChainGo_none] at h
      cases h
      rfl
    | some off => exact Option.noConfusion h
  | succ f ih =>
    intro ev idx fp kinds ev' kinds' h m
    cases fp with
    | none =>
      rw [walkChainGo_none] at h
      cases h
      rfl
    | some off =>
      cases hget : ev.get? (idx + off) with
      | none =>
        rw [walkChainGo_oob f ev idx off kinds hget] at h
        exact Option.noConfusion h
      | some e =>
        cases e with
        | StartNode kind fp' =>
          rw [walkChainGo_step f ev idx off kinds kind fp' hget] at h
          rw [ih _ _ _ _ _ _ h m,
            addToks_drop_set ev (idx + off) kind fp' hget m]
        | AddToken k t =>
          rw [walkChainGo_other f ev idx off kinds _ hget
            (fun _ _ h' => Event.noConfusion h')] at h
          exact Option.noConfusion h
        | FinishNode =>
          rw [walkChainGo_other f ev idx off kinds _ hget
            (fun _ _ h' => Event.noConfusion h')] at h
          exact Option.noConfusion h
        | Placeholder =>
          rw [walkChainGo_other f ev idx off kinds _ hget
            (fun _ _ h' => Event.noConfusion h')] at h
          exact Option.noConfusion h

theorem walkChainGo_length (fuel : Nat) :
    ∀ (ev : List Event) (idx : Nat) (fp : Option Nat)
      (kinds : List SyntaxKind) (ev' : List Event)
      (kinds' : List SyntaxKind),
      walkChainGo fuel ev idx fp kinds = some (ev', kinds') →
      ev'.length = ev.length := by
  induction fuel with
  | zero =>
    intro ev idx fp kinds ev' kinds' h
    cases fp with
    | none => rw [walkChainGo_none] at h; cases h; rfl
    | some off => exact Option.noConfusion h
  | succ f ih =>
    intro ev idx fp kinds ev' kinds' h
    cases fp with
    | none => rw [walkChainGo_none] at h; cases h; rfl
    | some off =>
      cases hget : ev.get? (idx + off) with
      | none =>
        rw [walkChainGo_oob f ev idx off kinds hget] at h
        exact Option.noConfusion h
      | some e =>
        cases e with
        | StartNode kind fp' =>
          rw [walkChainGo_step f ev idx off kinds kind fp' hget] at h
          rw [ih _ _ _ _ _ _ h]
          simp
        | AddToken k t =>
          rw [walkChainGo_other f ev idx off kinds _ hget
            (fun _ _ h' => Event.noConfusion h')] at h
          exact Option.noConfusion h
        | FinishNode =>
          rw [walkChainGo_other f ev idx off kinds _ hget
            (fun _ _ h' => Event.noConfusion h')] at h
          exact Option.noConfusion h
        | Placeholder =>
          rw [walkChainGo_other f ev idx off kinds _ hget
            (fun _ _ h' => Event.noConfusion h')] at h
          exact Option.noConfusion h

theorem walkChainGo_tombstone (fuel : Nat) :
    ∀ (ev : List Event) (idx : Nat) (fp : Option Nat)
      (kinds : List SyntaxKind) (ev' : List Event)
      (kinds' : List SyntaxKind),
      walkChainGo fuel ev idx fp kinds = some (ev', kinds') →
      ∀ j, ev'.get? j = ev.get? j ∨
        ∃ k f, ev.get? j = some (.StartNode k f) ∧
          ev'.get? j = some .Placeholder := by
  induction fuel with
  | zero =>
    intro ev idx fp kinds ev' kinds' h j
    cases fp with
    | none => rw [walkChainGo_none] at h; cases h; exact Or.inl rfl
    | some off => exact Option.noConfusion h
  | succ f ih =>
    intro ev idx fp kinds ev' kinds' h j
    cases fp with
    | none => rw [walkChainGo_none] at h; cases h; exact Or.inl rfl
    | some off =>
      cases hget : ev.get? (idx + off) with
      | none =>
        rw [walkChainGo_oob f ev idx off kinds hget] at h
        exact Option.noConfusion h
      | some e =>
        cases e with
        | StartNode kind fp' =>
          rw [walkChainGo_step f ev idx off kinds kind fp' hget] at h
          rcases ih _ _ _ _ _ _ h j with heq | ⟨k, f', h1, h2⟩
          · by_cases hj : idx + off = j
            · subst hj
              right
              refine ⟨kind, fp', hget, ?_⟩
              rw [heq]
              have hlt : idx + off < ev.length :=
                (List.get?_eq_some.mp hget).1
              simp only [List.get?_eq_getElem?]
              exact List.getElem?_set_eq_of_lt _ hlt
            · left
              rw [heq, List.get?_set_ne _ _ hj]
          · by_cases hj : idx + off = j
            · subst hj
              exact Or.inr ⟨kind, fp', hget, h2⟩
            · right
              rw [List.get?_set_ne _ _ hj] at h1
              exact ⟨k, f', h1, h2⟩
        | AddToken k t =>
          rw [walkChainGo_other f ev idx off kinds _ hget
            (fun _ _ h' => Event.noConfusion h')] at h
          exact Option.noConfusion h
        | FinishNode =>
          rw [walkChainGo_other f ev idx off kinds _ hget
            (fun _ _ h' => Event.noConfusion h')] at h
          exact Option.noConfusion h
        | Placeholder =>
          rw [walkChainGo_other f ev idx off kinds _ hget
            (fun _ _ h' => Event.noConfusion h')] at h
          exact Option.noConfusion h

theorem walkChainGo_kinds_extend (fuel : Nat) :
    ∀ (ev : List Event) (idx : Nat) (fp : Option Nat)
      (kinds : List SyntaxKind) (ev' : List Event)
      (kinds' : List SyntaxKind),
      walkChainGo fuel ev idx fp kinds = some (ev', kinds') →
      ∃ suffix, kinds' = kinds ++ suffix := by
  induction fuel with
  | zero =>
    intro ev idx fp kinds ev' kinds' h
    cases fp with
    | none => rw [walkChainGo_none] at h; cases h; exact ⟨[], by simp⟩
    | some off => exact Option.noConfusion h
  | succ f ih =>
    intro ev idx fp kinds ev' kinds' h
    cases fp with
    | none => rw [walkChainGo_none] at h; cases h; exact ⟨[], by simp⟩
    | some off =>
      cases hget : ev.get? (idx + off) with
      | none =>
        rw [walkChainGo_oob f ev idx off kinds hget] at h
        exact Option.noConfusion h
      | some e =>
        cases e with
        | StartNode kind fp' =>
          rw [walkChainGo_step f ev idx off kinds kind fp' hget] at h
          obtain ⟨suf, hsuf⟩ := ih _ _ _ _ _ _ h
          exact ⟨kind :: suf, by simpa using hsuf⟩
        | AddToken k t =>
          rw [walkChainGo_other f ev idx off kinds _ hget
            (fun _ _ h' => Event.noConfusion h')] at h
          exact Option.noConfusion h
        | FinishNode =>
          rw [walkChainGo_other f ev idx off kinds _ hget
            (fun _ _ h' => Event.noConfusion h')] at h
          exact Option.noConfusion h
        | Placeholder =>
          rw [walkChainGo_other f ev idx off kinds _ hget
            (fun _ _ h' => Event.noConfusion h')] at h
          exact Option.noConfusion h

theorem walkChain_addToks (ev : List Event) (idx : Nat) (fp : Option Nat)
    (kinds : List SyntaxKind) (ev' : List Event) (kinds' : List SyntaxKind)
    (h : walkChain ev idx fp kinds = some (ev', kinds')) (m : Nat) :
    addToks (ev'.drop m) = addToks (ev.drop m) :=
  walkChainGo_addToks _ ev idx fp kinds ev' kinds' h m

theorem walkChain_length (ev : List Event) (idx : Nat) (fp : Option Nat)
    (kinds : List SyntaxKind) (ev' : List Event) (kinds' : List SyntaxKind)
    (h : walkChain ev idx fp kinds = some (ev', kinds')) :
    ev'.length = ev.length :=
  walkChainGo_length _ ev idx fp kinds ev' kinds' h

theorem walkChain_tombstone (ev : List Event) (idx : Nat) (fp : Option Nat)
    (kinds : List SyntaxKind) (ev' : List Event) (kinds' : List SyntaxKind)
    (h : walkChain ev idx fp kinds = some (ev', kinds')) :
    ∀ j, ev'.get? j = ev.get? j ∨
      ∃ k f, ev.get? j = some (.StartNode k f) ∧
        ev'.get? j = some .Placeholder :=
  walkChainGo_tombstone _ ev idx fp kinds ev' kinds' h

theorem walkChain_kinds_extend (ev : List Event) (idx : Nat)
    (fp : Option Nat) (kinds : List SyntaxKind) (ev' : List Event)
    (kinds' : List SyntaxKind)
    (h : walkChain ev idx fp kinds = some (ev', kinds')) :
    ∃ suffix, kinds' = kinds ++ suffix :=
  walkChainGo_kinds_extend _ ev idx fp kinds ev' kinds' h


theorem foldl_start_node_stack (ks : List SyntaxKind) (b : Builder) :
    (ks.reverse.foldl Builder.start_node b).stack =
      ks.map (fun k => (k, ([] : List GreenTree))) ++ b.stack := by
  induction ks generalizing b with
  | nil => rfl
  | cons k ks ih =>
    rw [List.reverse_cons, List.foldl_append]
    simp only [List.foldl_cons, List.foldl_nil, Builder.start_node]
    rw [ih]
    simp

end HeliosSink

namespace HeliosSink

theorem eat_trivia_step (s : Sink) (tok : Token)
    (hget : s.tokens.get? s.cursor = some tok)
    (ht : tok.kind.is_trivia = true) :
    s.eat_trivia = (s.token tok.kind tok.text).eat_trivia := by
  have hlt : s.cursor < s.tokens.length := (List.get?_eq_some.mp hget).1
  show Sink.eatTriviaGo (s.tokens.length - s.cursor) s = _
  have hk : s.tokens.length - s.cursor =
      (s.tokens.length - (s.cursor + 1)) + 1 := by omega
  rw [hk]
  simp only [Sink.eatTriviaGo, hget, if_pos ht]
  rfl

theorem eat_trivia_stop (s : Sink) (tok : Token)
    (hget : s.tokens.get? s.cursor = some tok)
    (ht : tok.kind.is_trivia = false) :
    s.eat_trivia = s := by
  have hlt : s.cursor < s.tokens.length := (List.get?_eq_some.mp hget).1
  show Sink.eatTriviaGo (s.tokens.length - s.cursor) s = s
  have hk : s.tokens.length - s.cursor =
      (s.tokens.length - (s.cursor + 1)) + 1 := by omega
  rw [hk]
  simp only [Sink.eatTriviaGo, hget, ht]
  rfl

theorem eat_trivia_end (s : Sink) (hget : s.tokens.get? s.cursor = none) :
    s.eat_trivia = s := by
  show Sink.eatTriviaGo (s.tokens.length - s.cursor) s = s
  cases hk : s.tokens.length - s.cursor with
  | zero => rfl
  | succ k => simp only [Sink.eatTriviaGo, hget]

theorem eat_trivia_inv_aux (n : Nat) :
    ∀ s : Sink, s.tokens.length - s.cursor ≤ n →
    s.cursor ≤ s.tokens.length →
    builderLeaves s.builder = (s.tokens.take s.cursor).map Token.text →
    s.eat_trivia.events = s.events ∧
    s.eat_trivia.tokens = s.tokens ∧
    s.eat_trivia.cursor ≤ s.tokens.length ∧
    builderLeaves s.eat_trivia.builder =
      (s.tokens.take s.eat_trivia.cursor).map Token.text ∧
    sigTokens (s.tokens.drop s.eat_trivia.cursor) =
      sigTokens (s.tokens.drop s.cursor) ∧
    (s.eat_trivia.cursor = s.tokens.length ∨
      ∃ t, s.tokens.get? s.eat_trivia.cursor = some t ∧
        t.kind.is_trivia = false) := by
  induction n with
  | zero =>
    intro s hle hc hb
    have hend : s.tokens.get? s.cursor = none :=
      List.get?_eq_none.mpr (by omega)
    rw [eat_trivia_end s hend]
    exact ⟨rfl, rfl, hc, hb, rfl, Or.inl (by omega)⟩
  | succ n ih =>
    intro s hle hc hb
    cases hget : s.tokens.get? s.cursor with
    | none =>
      rw [eat_trivia_end s hget]
      have := List.get?_eq_none.mp hget
      exact ⟨rfl, rfl, hc, hb, rfl, Or.inl (by omega)⟩
    | some tok =>
      cases htr : tok.kind.is_trivia with
      | false =>
        rw [eat_trivia_stop s tok hget htr]
        exact ⟨rfl, rfl, hc, hb, rfl, Or.inr ⟨tok, hget, htr⟩⟩
      | true =>
        have hlt : s.cursor < s.tokens.length :=
          (List.get?_eq_some.mp hget).1
        have hb' : builderLeaves (s.token tok.kind tok.text).builder =
            ((s.token tok.kind tok.text).tokens.take
              (s.token tok.kind tok.text).cursor).map Token.text := by
          show builderLeaves (s.builder.push (.token tok.kind tok.text)) =
            (s.tokens.take (s.cursor + 1)).map Token.text
          rw [builderLeaves_push, hb, List.take_succ, List.map_append,
            ← List.get?_eq_getElem?, hget]
          rfl
        have hc' : (s.token tok.kind tok.text).cursor ≤
            (s.token tok.kind tok.text).tokens.length := by
          show s.cursor + 1 ≤ s.tokens.length
          omega
        have hle' : (s.token tok.kind tok.text).tokens.length -
            (s.token tok.kind tok.text).cursor ≤ n := by
          show s.tokens.length - (s.cursor + 1) ≤ n
          omega
        obtain ⟨h1, h2, h3, h4, h5, h6⟩ :=
          ih (s.token tok.kind tok.text) hle' hc' hb'
        rw [eat_trivia_step s tok hget htr]
        refine ⟨h1, h2, h3, h4, ?_, h6⟩
        have h5' : sigTokens (s.tokens.drop
            (s.token tok.kind tok.text).eat_trivia.cursor) =
            sigTokens (s.tokens.drop (s.cursor + 1)) := h5
        rw [h5']
        show sigTokens (s.tokens.drop (s.cursor + 1)) =
          sigTokens (s.tokens.drop s.cursor)
        rw [List.drop_eq_getElem_cons hlt]
        have hx : s.tokens[s.cursor] = tok := by
          have h' := hget
          rw [List.get?_eq_getElem?] at h'
          exact (List.getElem?_eq_some.mp h').2
        rw [hx]
        simp [sigTokens, List.filter_cons, htr]

theorem eat_trivia_inv (s : Sink) (hc : s.cursor ≤ s.tokens.length)
    (hb : builderLeaves s.builder = (s.tokens.take s.cursor).map Token.text) :
    s.eat_trivia.events = s.events ∧
    s.eat_trivia.tokens = s.tokens ∧
    s.eat_trivia.cursor ≤ s.tokens.length ∧
    builderLeaves s.eat_trivia.builder =
      (s.tokens.take s.eat_trivia.cursor).map Token.text ∧
    sigTokens (s.tokens.drop s.eat_trivia.cursor) =
      sigTokens (s.tokens.drop s.cursor) ∧
    (s.eat_trivia.cursor = s.tokens.length ∨
      ∃ t, s.tokens.get? s.eat_trivia.cursor = some t ∧
        t.kind.is_trivia = false) :=
  eat_trivia_inv_aux (s.tokens.length - s.cursor) s le_rfl hc hb

end HeliosSink

namespace HeliosSink

theorem step_start (s : Sink) (i : Nat) (kind : SyntaxKind)
    (fp : Option Nat) (hget : s.events.get? i = some (.StartNode kind fp)) :
    s.step i =
      match walkChain (s.events.set i .Placeholder) i fp [kind] with
      | some (events', ks) =>
        some ⟨s.tokens, s.cursor, events',
          ks.reverse.foldl Builder.start_node s.builder⟩
      | none => none := by
  simp only [Sink.step, hget]

theorem step_addToken (s : Sink) (i : Nat) (kind : SyntaxKind) (text : String)
    (hget : s.events.get? i = some (.AddToken kind text)) :
    s.step i = some ⟨s.tokens, s.cursor + 1, s.events.set i .Placeholder,
      s.builder.push (.token kind text)⟩ := by
  simp only [Sink.step, hget]
  rfl

theorem step_finish (s : Sink) (i : Nat)
    (hget : s.events.get? i = some .FinishNode) :
    s.step i =
      match s.builder.finish_node with
      | some b => some ⟨s.tokens, s.cursor, s.events.set i .Placeholder, b⟩
      | none => none := by
  simp only [Sink.step, hget]

theorem step_placeholder (s : Sink) (i : Nat)
    (hget : s.events.get? i = some .Placeholder) :
    s.step i = some { s with events := s.events.set i .Placeholder } := by
  simp only [Sink.step, hget]

theorem step_oob (s : Sink) (i : Nat) (hget : s.events.get? i = none) :
    s.step i = none := by
  simp only [Sink.step, hget]

end HeliosSink

namespace HeliosSink

theorem step_inv (s : Sink) (i : Nat) (s1 : Sink)
    (hstep : s.step i = some s1)
    (hc : s.cursor ≤ s.tokens.length)
    (hb : builderLeaves s.builder = (s.tokens.take s.cursor).map Token.text)
    (ha : addToks (s.events.drop i) =
      (sigTokens (s.tokens.drop s.cursor)).map (fun t => (t.kind, t.text)))
    (hsig : ∀ k t, s.events.get? i = some (.AddToken k t) →
      s.cursor = s.tokens.length ∨
        ∃ tok, s.tokens.get? s.cursor = some tok ∧
          tok.kind.is_trivia = false) :
    s1.tokens = s.tokens ∧ s1.events.length = s.events.length ∧
    s1.cursor ≤ s.tokens.length ∧
    builderLeaves s1.builder = (s.tokens.take s1.cursor).map Token.text ∧
    addToks (s1.events.drop (i + 1)) =
      (sigTokens (s.tokens.drop s1.cursor)).map (fun t => (t.kind, t.text)) := by
  cases hev : s.events.get? i with
  | none => rw [step_oob _ _ hev] at hstep; exact Option.noConfusion hstep
  | some ev =>
    have hi : i < s.events.length := (List.get?_eq_some.mp hev).1
    have hgi : s.events[i] = ev := by
      have h' := hev
      rw [List.get?_eq_getElem?] at h'
      exact (List.getElem?_eq_some.mp h').2
    have hdropi : s.events.drop i = ev :: s.events.drop (i + 1) := by
      rw [List.drop_eq_getElem_cons hi, hgi]
    have hdropset : ∀ e : Event, (s.events.set i e).drop (i + 1) =
        s.events.drop (i + 1) :=
      fun e => List.drop_set_of_lt e s.events (by omega)
    cases ev with
    | StartNode kind fp =>
      rw [step_start _ _ _ _ hev] at hstep
      cases hwc : walkChain (s.events.set i .Placeholder) i fp [kind] with
      | none => rw [hwc] at hstep; exact Option.noConfusion hstep
      | some pair =>
        obtain ⟨ev', ks⟩ := pair
        rw [hwc] at hstep
        cases hstep
        refine ⟨rfl, ?_, hc, ?_, ?_⟩
        · rw [walkChain_length _ _ _ _ _ _ hwc]
          simp
        · rw [builderLeaves_foldl_start, hb]
        · rw [walkChain_addToks _ _ _ _ _ _ hwc (i + 1), hdropset]
          rw [hdropi] at ha
          exact ha
    | AddToken kind text =>
      rw [step_addToken _ _ _ _ hev] at hstep
      cases hstep
      rw [hdropi] at ha
      have ha' : (kind, text) :: addToks (s.events.drop (i + 1)) =
          (sigTokens (s.tokens.drop s.cursor)).map
            (fun t => (t.kind, t.text)) := ha
      rcases hsig kind text hev with hlen | ⟨tok, hgett, hsigt⟩
      · rw [hlen, List.drop_length] at ha'
        simp [sigTokens] at ha'
      · have hclt : s.cursor < s.tokens.length :=
          (List.get?_eq_some.mp hgett).1
        have hgtok : s.tokens[s.cursor] = tok := by
          have h' := hgett
          rw [List.get?_eq_getElem?] at h'
          exact (List.getElem?_eq_some.mp h').2
        have hdropc : s.tokens.drop s.cursor =
            tok :: s.tokens.drop (s.cursor + 1) := by
          rw [List.drop_eq_getElem_cons hclt, hgtok]
        rw [hdropc] at ha'
        have hsigc : sigTokens (tok :: s.tokens.drop (s.cursor + 1)) =
            tok :: sigTokens (s.tokens.drop (s.cursor + 1)) := by
          simp [sigTokens, List.filter_cons, hsigt]
        rw [hsigc, List.map_cons] at ha'
        have hkind : kind = tok.kind := congrArg Prod.fst (List.head_eq_of_cons_eq ha')
        have htext : text = tok.text := congrArg Prod.snd (List.head_eq_of_cons_eq ha')
        have htail := List.tail_eq_of_cons_eq ha'
        refine ⟨rfl, by simp,
          (by show s.cursor + 1 ≤ s.tokens.length; omega), ?_, ?_⟩
        · show builderLeaves (s.builder.push (.token kind text)) =
            (s.tokens.take (s.cursor + 1)).map Token.text
          rw [builderLeaves_push, hb, List.take_succ, List.map_append,
            ← List.get?_eq_getElem?, hgett]
          simp [GreenTree.leaves, htext]
        · show addToks ((s.events.set i .Placeholder).drop (i + 1)) =
            (sigTokens (s.tokens.drop (s.cursor + 1))).map
              (fun t => (t.kind, t.text))
          rw [hdropset]
          exact htail
    | FinishNode =>
      rw [step_finish _ _ hev] at hstep
      cases hfn : s.builder.finish_node with
      | none => rw [hfn] at hstep; exact Option.noConfusion hstep
      | some b =>
        rw [hfn] at hstep
        cases hstep
        refine ⟨rfl, by simp, hc, ?_, ?_⟩
        · rw [builderLeaves_finish_node _ _ hfn, hb]
        · rw [hdropset]
          rw [hdropi] at ha
          exact ha
    | Placeholder =>
      rw [step_placeholder _ _ hev] at hstep
      cases hstep
      refine ⟨rfl, by simp, hc, hb, ?_⟩
      show addToks ((s.events.set i .Placeholder).drop (i + 1)) =
        (sigTokens (s.tokens.drop s.cursor)).map (fun t => (t.kind, t.text))
      rw [hdropset]
      rw [hdropi] at ha
      exact ha

end HeliosSink

namespace HeliosSink

theorem runFrom_lt (n : Nat) (s : Sink) (i : Nat) (h : i < n) :
    Sink.runFrom n s i =
      match s.step i with
      | some s' => Sink.runFrom n s'.eat_trivia (i + 1)
      | none => none := by
  show Sink.runFromGo (n - i) n s i = _
  have hk : n - i = (n - (i + 1)) + 1 := by omega
  rw [hk]
  simp only [Sink.runFromGo, if_pos h]
  rfl

theorem runFrom_ge (n : Nat) (s : Sink) (i : Nat) (h : ¬i < n) :
    Sink.runFrom n s i = some s := by
  show Sink.runFromGo (n - i) n s i = some s
  cases hk : n - i with
  | zero => simp only [Sink.runFromGo, if_neg h]
  | succ k => simp only [Sink.runFromGo, if_neg h]

theorem runFrom_inv_aux (n : Nat) (f : Nat) :
    ∀ (s : Sink) (i : Nat) (sf : Sink),
    n - i ≤ f →
    Sink.runFrom n s i = some sf →
    s.events.length = n →
    s.cursor ≤ s.tokens.length →
    builderLeaves s.builder = (s.tokens.take s.cursor).map Token.text →
    addToks (s.events.drop i) =
      (sigTokens (s.tokens.drop s.cursor)).map (fun t => (t.kind, t.text)) →
    (s.cursor = s.tokens.length ∨
      ∃ tok, s.tokens.get? s.cursor = some tok ∧
        tok.kind.is_trivia = false) →
    sf.tokens = s.tokens ∧
    builderLeaves sf.builder = (sf.tokens.take sf.cursor).map Token.text ∧
    sf.cursor ≤ sf.tokens.length ∧
    sigTokens (sf.tokens.drop sf.cursor) = [] ∧
    (sf.cursor = sf.tokens.length ∨
      ∃ t, sf.tokens.get? sf.cursor = some t ∧
        t.kind.is_trivia = false) := by
  induction f with
  | zero =>
    intro s i sf hle hrun hn hc hb ha hsig4
    have hge : ¬i < n := by omega
    rw [runFrom_ge n s i hge] at hrun
    have hsf := Option.some.inj hrun
    subst hsf
    have hdrop : s.events.drop i = [] := by
      apply List.drop_eq_nil_of_le
      omega
    rw [hdrop] at ha
    exact ⟨rfl, hb, hc, List.map_eq_nil.mp ha.symm, hsig4⟩
  | succ f ih =>
    intro s i sf hle hrun hn hc hb ha hsig4
    by_cases hlt : i < n
    · rw [runFrom_lt n s i hlt] at hrun
      cases hstep : s.step i with
      | none =>
        rw [hstep] at hrun
        exact Option.noConfusion hrun
      | some s1 =>
        rw [hstep] at hrun
        obtain ⟨t1, l1, c1, b1, a1⟩ :=
          step_inv s i s1 hstep hc hb ha (fun _ _ _ => hsig4)
        have hc1 : s1.cursor ≤ s1.tokens.length := by rw [t1]; exact c1
        have hb1 : builderLeaves s1.builder =
            (s1.tokens.take s1.cursor).map Token.text := by
          rw [t1]; exact b1
        obtain ⟨e2, t2, c2, b2, g2, s4⟩ := eat_trivia_inv s1 hc1 hb1
        obtain ⟨T, B, C, G, I⟩ := ih s1.eat_trivia (i + 1) sf
          (by omega)
          hrun
          (by rw [e2, l1, hn])
          (by rw [t2]; exact c2)
          (by rw [t2]; exact b2)
          (by rw [e2, t2, g2, t1]
              exact a1)
          (by rw [t2]; exact s4)
        refine ⟨by rw [T, t2, t1], B, C, G, I⟩
    · rw [runFrom_ge n s i hlt] at hrun
      have hsf := Option.some.inj hrun
      subst hsf
      have hdrop : s.events.drop i = [] := by
        apply List.drop_eq_nil_of_le
        omega
      rw [hdrop] at ha
      exact ⟨rfl, hb, hc, List.map_eq_nil.mp ha.symm, hsig4⟩

theorem runFrom_inv (n : Nat) (s : Sink) (i : Nat) (sf : Sink)
    (hrun : Sink.runFrom n s i = some sf)
    (hn : s.events.length = n)
    (hc : s.cursor ≤ s.tokens.length)
    (hb : builderLeaves s.builder = (s.tokens.take s.cursor).map Token.text)
    (ha : addToks (s.events.drop i) =
      (sigTokens (s.tokens.drop s.cursor)).map (fun t => (t.kind, t.text)))
    (hsig4 : s.cursor = s.tokens.length ∨
      ∃ tok, s.tokens.get? s.cursor = some tok ∧
        tok.kind.is_trivia = false) :
    sf.tokens = s.tokens ∧
    builderLeaves sf.builder = (sf.tokens.take sf.cursor).map Token.text ∧
    sf.cursor ≤ sf.tokens.length ∧
    sigTokens (sf.tokens.drop sf.cursor) = [] ∧
    (sf.cursor = sf.tokens.length ∨
      ∃ t, sf.tokens.get? sf.cursor = some t ∧
        t.kind.is_trivia = false) :=
  runFrom_inv_aux n (n - i) s i sf le_rfl hrun hn hc hb ha hsig4

/-- C2: for every source input, concatenating the texts of all leaf tokens
of the tree `Sink::finish` builds — in tree order, trivia included —
reproduces the input exactly. The lexer hands the sink a token stream
whose concatenated texts are the source (its external contract), and the
absent Helios parser's contract is spec-modelled as hypotheses: the event
log opens with the root `StartNode` and its `AddToken` events list exactly
the significant tokens in order. The conclusion shows the leaf texts are
exactly the full token texts in order, hence their concatenation is the
source. -/
theorem sink_finish_lossless (tokens : List Token) (events : List Event)
    (k0 : SyntaxKind) (fp0 : Option Nat) (rest : List Event)
    (tree : GreenTree)
    (hev : events = .StartNode k0 fp0 :: rest)
    (hadd : addToks events =
      (sigTokens tokens).map (fun t => (t.kind, t.text)))
    (hfin : sinkFinish tokens events = some tree) :
    tree.leaves = tokens.map Token.text ∧
    String.join tree.leaves = String.join (tokens.map Token.text) := by
  subst hev
  unfold sinkFinish Sink.finish at hfin
  set s0 : Sink := Sink.new tokens (.StartNode k0 fp0 :: rest) with hs0
  cases hr : Sink.runFrom s0.events.length s0 0 with
  | none => rw [hr] at hfin; exact Option.noConfusion hfin
  | some sf =>
    rw [hr] at hfin
    have hn1 : 0 < s0.events.length := by simp [hs0, Sink.new]
    rw [runFrom_lt _ _ _ hn1] at hr
    cases hs : s0.step 0 with
    | none => rw [hs] at hr; exact Option.noConfusion hr
    | some s1 =>
      rw [hs] at hr
      have hget0 : s0.events.get? 0 = some (.StartNode k0 fp0) := rfl
      obtain ⟨t1, l1, c1, b1, a1⟩ := step_inv s0 0 s1 hs
        (by show 0 ≤ tokens.length; omega)
        (by simp [hs0, Sink.new, Builder.new, builderLeaves, leavesList,
              stackLeaves])
        (by simpa [hs0, Sink.new] using hadd)
        (by intro k t h
            rw [hget0] at h
            exact Event.noConfusion (Option.some.inj h))
      have hc1 : s1.cursor ≤ s1.tokens.length := by rw [t1]; exact c1
      have hb1 : builderLeaves s1.builder =
          (s1.tokens.take s1.cursor).map Token.text := by rw [t1]; exact b1
      obtain ⟨e2, t2, c2, b2, g2, s4⟩ := eat_trivia_inv s1 hc1 hb1
      obtain ⟨T, B, C, G, I⟩ := runFrom_inv s0.events.length
        s1.eat_trivia 1 sf hr
        (by rw [e2, l1])
        (by rw [t2]; exact c2)
        (by rw [t2]; exact b2)
        (by rw [e2, t2, g2, t1]
            exact a1)
        (by rw [t2]; exact s4)
      have hTt : sf.tokens = tokens := by
        rw [T, t2, t1]
        rfl
      have hcur : sf.cursor = sf.tokens.length := by
        rcases I with h | ⟨t, hget, hsigt⟩
        · exact h
        · exfalso
          have hlt : sf.cursor < sf.tokens.length :=
            (List.get?_eq_some.mp hget).1
          have hgtok : sf.tokens[sf.cursor] = t := by
            have h' := hget
            rw [List.get?_eq_getElem?] at h'
            exact (List.getElem?_eq_some.mp h').2
          rw [List.drop_eq_getElem_cons hlt, hgtok] at G
          simp [sigTokens, List.filter_cons, hsigt] at G
      have hleaves : tree.leaves = tokens.map Token.text := by
        rw [finish_leaves sf.builder tree hfin, B, hcur, List.take_length,
          hTt]
      exact ⟨hleaves, by rw [hleaves]⟩

end HeliosSink

namespace HeliosSink

/-- C2 witness: the losslessness theorem applied to the concrete input
`"let foo = bar"` with its spec-modelled event log; both hypotheses and
the sink run evaluate by reduction. -/
theorem sink_finish_lossless_witness :
    letFooBarTree.leaves = letFooBarTokens.map Token.text ∧
    String.join letFooBarTree.leaves =
      String.join (letFooBarTokens.map Token.text) :=
  sink_finish_lossless letFooBarTokens letFooBarEvents .Root none _
    letFooBarTree rfl rfl rfl

theorem foldl_start_node_root (ks : List SyntaxKind) (b : Builder) :
    (ks.foldl Builder.start_node b).root = b.root := by
  induction ks generalizing b with
  | nil => rfl
  | cons k ks ih => rw [List.foldl_cons, ih]; rfl

/-- C6: during `Sink::finish`, every event is consumed exactly once:
the forward-parent walk rewrites each visited `StartNode` in place to a
`Placeholder` and leaves every other event untouched; the walked kinds
extend the accumulator from innermost to outermost; processing a
`StartNode` opens the collected kinds in reverse order (outermost first,
so the innermost frame ends on top of the builder stack); and processing
a `Placeholder` event is a complete no-op on the sink state, so a
tombstoned event is never processed again. -/
theorem sink_consumes_each_event_once :
    (∀ (ev : List Event) (idx : Nat) (fp : Option Nat)
       (kinds : List SyntaxKind) (ev' : List Event)
       (kinds' : List SyntaxKind),
       walkChain ev idx fp kinds = some (ev', kinds') →
       ∀ j, ev'.get? j = ev.get? j ∨
         ∃ k f, ev.get? j = some (.StartNode k f) ∧
           ev'.get? j = some .Placeholder) ∧
    (∀ (ev : List Event) (idx : Nat) (fp : Option Nat)
       (kinds : List SyntaxKind) (ev' : List Event)
       (kinds' : List SyntaxKind),
       walkChain ev idx fp kinds = some (ev', kinds') →
       ∃ suffix, kinds' = kinds ++ suffix) ∧
    (∀ (s : Sink) (i : Nat) (kind : SyntaxKind) (fp : Option Nat)
       (ev' : List Event) (ks : List SyntaxKind),
       s.events.get? i = some (.StartNode kind fp) →
       walkChain (s.events.set i .Placeholder) i fp [kind] =
         some (ev', ks) →
       s.step i = some { s with
         events := ev',
         builder := { s.builder with
           stack := ks.map (fun kk => (kk, ([] : List GreenTree))) ++
             s.builder.stack } }) ∧
    (∀ (s : Sink) (i : Nat), s.events.get? i = some .Placeholder →
       s.step i = some s) := by
  refine ⟨walkChain_tombstone, walkChain_kinds_extend, ?_, ?_⟩
  · intro s i kind fp ev' ks hget hwc
    rw [step_start _ _ _ _ hget]
    simp only [hwc]
    have hbuild : ks.reverse.foldl Builder.start_node s.builder =
        Builder.mk (ks.map (fun kk => (kk, ([] : List GreenTree))) ++
          s.builder.stack) s.builder.root :=
      calc ks.reverse.foldl Builder.start_node s.builder =
          ⟨(ks.reverse.foldl Builder.start_node s.builder).stack,
           (ks.reverse.foldl Builder.start_node s.builder).root⟩ := rfl
        _ = _ := by
            rw [foldl_start_node_stack, foldl_start_node_root]
    rw [hbuild]
  · intro s i hget
    rw [step_placeholder _ _ hget, set_same _ _ _ hget]

/-- C6 witness: the theorem's `Placeholder` no-op clause applied to a
concrete sink whose event log holds a lone tombstone. -/
theorem sink_consumes_each_event_once_witness :
    (Sink.new [] [Event.Placeholder]).step 0 =
      some (Sink.new [] [Event.Placeholder]) :=
  sink_consumes_each_event_once.2.2.2 (Sink.new [] [Event.Placeholder]) 0 rfl

/-- C7 counterexample: for `"// comment\nlet a = 10\n"` the sink attaches
the leading comment and its newline as the first two children of the root
node — the comment is a top-level sibling preceding the binding node, and
is not inside the binding in front of the `let` keyword, contradicting
the claim. -/
theorem leading_trivia_top_level_counterexample :
    (rootChildren
      (sinkFinish commentBindingTokens commentBindingEvents)).head? =
      some (.token .LineComment "// comment") ∧
    (rootChildren
      (sinkFinish commentBindingTokens commentBindingEvents)).get? 1 =
      some (.token .Whitespace "\n") ∧
    (rootChildren
      (sinkFinish commentBindingTokens commentBindingEvents)).get? 2 =
      some (.node .Dec_GlobalBinding
        [.token .Kwd_Let "let", .token .Whitespace " ",
         .token .Identifier "a", .token .Whitespace " ",
         .token .Sym_Eq "=", .token .Whitespace " ",
         .node .Exp_Literal
           [.token .Lit_Integer "10", .token .Whitespace "\n"]]) :=
  ⟨rfl, rfl, rfl⟩

/-- C7 (amended): for `"// comment\nlet a = 10\n"` the leading comment
and its newline are attached as the first children of the root node,
immediately preceding the binding node (they precede, rather than live
inside, the binding; the tree stays lossless and the interior trivia
attach after the nearest preceding significant token). -/
theorem leading_trivia_attach_to_root :
    sinkFinish commentBindingTokens commentBindingEvents =
      some (.node .Root
        [.token .LineComment "// comment", .token .Whitespace "\n",
         .node .Dec_GlobalBinding
           [.token .Kwd_Let "let", .token .Whitespace " ",
            .token .Identifier "a", .token .Whitespace " ",
            .token .Sym_Eq "=", .token .Whitespace " ",
            .node .Exp_Literal
              [.token .Lit_Integer "10", .token .Whitespace "\n"]]]) :=
  rfl

end HeliosSink

namespace Koi

theorem peek_of_buffered (p : Parser) (t : SyntaxToken)
    (hp : p.peeked_token = some t) : p.peek = (some t, p) := by
  simp [Parser.peek, hp]

theorem peek_of_empty (p : Parser) (hp : p.peeked_token = none) :
    p.peek = (some (p.lexer.next_token).1,
      ⟨(p.lexer.next_token).2, some (p.lexer.next_token).1⟩) := by
  simp [Parser.peek, hp]

theorem peek_buffers (p : Parser) (tok : SyntaxToken) (p' : Parser)
    (hpeek : p.peek = (some tok, p')) : p'.peeked_token = some tok := by
  cases hp : p.peeked_token with
  | some t =>
    rw [peek_of_buffered p t hp] at hpeek
    injection hpeek with h1 h2
    injection h1 with h1
    subst h2
    rw [hp, h1]
  | none =>
    rw [peek_of_empty p hp] at hpeek
    injection hpeek with h1 h2
    injection h1 with h1
    subst h2
    show some (p.lexer.next_token).1 = some tok
    rw [h1]

end Koi

/-- C4: parsing `"let foo"` does not abort. On the Helios side (the event
parser and its `expect` are absent from the sources, so its recovery
events are spec-modelled) the sink yields a binding node holding the `let`
keyword, the identifier `foo`, a zero-width missing `=` token laid out at
byte 7 — the position immediately after `foo` — and a zero-width
missing-expression node at the same position. In general (the Koi
parser's real `consume`): whenever the peeked token does not have the
required kind, `consume` returns a zero-width missing token of that kind
at the current lexer position without consuming anything, and the
offending token stays buffered, so parsing continues. -/
theorem missing_token_recovery :
    (HeliosSink.sinkFinish HeliosSink.letFooSinkTokens
        HeliosSink.letFooEvents =
      some (.node .Root
        [.node .Dec_GlobalBinding
          [.token .Kwd_Let "let", .token .Whitespace " ",
           .token .Identifier "foo", .token .Sym_Eq "",
           .node .Exp_MissingExpression []]]) ∧
     (HeliosSink.sinkFinish HeliosSink.letFooSinkTokens
        HeliosSink.letFooEvents).map (fun t => t.leafSpans 0) =
      some ([(.Kwd_Let, 0, 3), (.Whitespace, 3, 1), (.Identifier, 4, 3),
             (.Sym_Eq, 7, 0)], 7)) ∧
    (∀ (p : Koi.Parser) (kind : Koi.TokenKind) (tok : Koi.SyntaxToken)
       (p' : Koi.Parser),
       p.peek = (some tok, p') → ¬tok.kind = kind →
       p.consume kind =
         some (Koi.SyntaxToken.missing ⟨kind, ""⟩
           (Koi.TextSpan.zero_width p.lexer.current_pos), p') ∧
       p'.peeked_token = some tok) := by
  refine ⟨⟨rfl, rfl⟩, ?_⟩
  intro p kind tok p' hpeek hne
  constructor
  · simp only [Koi.Parser.consume, hpeek]
    rw [if_neg hne]
  · exact Koi.peek_buffers p tok p' hpeek

/-- C4 witness: the `consume` clause applied to a parser whose next token
is an `Eof` at byte 7 while a `=` is required — the missing `=` token is
zero-width at 7 and the `Eof` stays buffered. -/
theorem missing_token_recovery_witness :
    Koi.Parser.consume ⟨⟨[], 7⟩, none⟩ (.Symbol .Eq) =
      some (Koi.SyntaxToken.missing ⟨.Symbol .Eq, ""⟩
          (Koi.TextSpan.zero_width 7),
        ⟨⟨[], 7⟩, some ⟨⟨.Eof, ""⟩, ⟨7, 0⟩⟩⟩) ∧
    (Koi.Parser.mk ⟨[], 7⟩
        (some ⟨⟨.Eof, ""⟩, ⟨7, 0⟩⟩)).peeked_token =
      some ⟨⟨.Eof, ""⟩, ⟨7, 0⟩⟩ :=
  missing_token_recovery.2 ⟨⟨[], 7⟩, none⟩ (.Symbol .Eq)
    ⟨⟨.Eof, ""⟩, ⟨7, 0⟩⟩ ⟨⟨[], 7⟩, some ⟨⟨.Eof, ""⟩, ⟨7, 0⟩⟩⟩
    rfl (by decide)

namespace Koi

theorem lexer_next_rem (lx : Lexer) :
    (lx.next_token).2.rem.length ≤ lx.rem.length := by
  cases h : lx.rem with
  | nil => simp [Lexer.next_token, h]
  | cons t ts => simp [Lexer.next_token, h]

theorem peek_measure (p : Parser) : pMeasure (p.peek).2 ≤ pMeasure p := by
  cases hp : p.peeked_token with
  | some t => rw [peek_of_buffered p t hp]
  | none =>
    rw [peek_of_empty p hp]
    show (p.lexer.next_token).2.rem.length +
      tokenWeight (p.lexer.next_token).1 ≤ pMeasure p
    cases hr : p.lexer.rem with
    | nil =>
      simp only [pMeasure, hp, hr, Lexer.next_token]
      simp [tokenWeight, SyntaxToken.kind]
    | cons t ts =>
      simp only [pMeasure, hp, hr, Lexer.next_token]
      cases htk : t.raw.kind <;>
        simp [tokenWeight, SyntaxToken.kind, htk]

theorem peek_same_of_buffered (p : Parser) (t : SyntaxToken)
    (hp : p.peeked_token = some t) : (p.peek).2 = p := by
  rw [peek_of_buffered p t hp]

theorem next_measure (p : Parser) :
    pMeasure (p.next_token).2 ≤ pMeasure p := by
  cases hp : p.peeked_token with
  | some t =>
    simp only [Parser.next_token, hp, pMeasure]
    cases htw : tokenWeight t <;> omega
  | none =>
    simp only [Parser.next_token, hp, pMeasure]
    have := lexer_next_rem p.lexer
    omega

theorem next_measure_strict (p : Parser) (t : SyntaxToken)
    (hp : p.peeked_token = some t) (hw : tokenWeight t = 1) :
    pMeasure (p.next_token).2 + 1 ≤ pMeasure p := by
  simp only [Parser.next_token, hp, pMeasure, hw]
  omega

theorem check_snd (p : Parser) (k : TokenKind) :
    (p.check k).2 = (p.peek).2 := by
  rcases hpk : p.peek with ⟨o, p'⟩
  cases o <;> simp [Parser.check, hpk]

theorem check_measure (p : Parser) (k : TokenKind) :
    pMeasure (p.check k).2 ≤ pMeasure p := by
  rw [check_snd]
  exact peek_measure p

theorem check_true_buffered (p : Parser) (k : TokenKind) (p' : Parser)
    (h : p.check k = (true, p')) :
    ∃ t, p'.peeked_token = some t ∧ t.kind = k := by
  rcases hpk : p.peek with ⟨o, p₁⟩
  cases o with
  | none => simp [Parser.check, hpk] at h
  | some t =>
    simp only [Parser.check, hpk] at h
    obtain ⟨hkk, hpp⟩ := Prod.mk.inj h
    subst hpp
    refine ⟨t, peek_buffers p t p₁ hpk, ?_⟩
    exact of_decide_eq_true hkk

theorem consume_some (p : Parser) (k : TokenKind) :
    ∃ tok p', p.consume k = some (tok, p') ∧ pMeasure p' ≤ pMeasure p := by
  rcases hpk : p.peek with ⟨o, p₁⟩
  cases o with
  | none =>
    exfalso
    cases hp : p.peeked_token with
    | some t => rw [peek_of_buffered p t hp] at hpk; exact Option.noConfusion (Prod.mk.inj hpk).1
    | none => rw [peek_of_empty p hp] at hpk; exact Option.noConfusion (Prod.mk.inj hpk).1
  | some tok =>
    have hm : pMeasure p₁ ≤ pMeasure p := by
      have := peek_measure p
      rw [hpk] at this
      exact this
    by_cases hk : tok.kind = k
    · refine ⟨(p₁.next_token).1, (p₁.next_token).2, ?_, ?_⟩
      · simp only [Parser.consume, hpk, if_pos hk]
      · exact le_trans (next_measure p₁) hm
    · refine ⟨SyntaxToken.missing ⟨k, ""⟩
        (TextSpan.zero_width p.lexer.current_pos), p₁, ?_, hm⟩
      simp only [Parser.consume, hpk, if_neg hk]

theorem consume_measure (p : Parser) (k : TokenKind) (tok : SyntaxToken)
    (p' : Parser) (h : p.consume k = some (tok, p')) :
    pMeasure p' ≤ pMeasure p := by
  obtain ⟨tok₂, p₂, h₂, hm₂⟩ := consume_some p k
  rw [h₂] at h
  obtain ⟨-, hp⟩ := Prod.mk.inj (Option.some.inj h)
  subst hp
  exact hm₂

theorem consume_optional_measure (p : Parser) (k : TokenKind) :
    pMeasure (p.consume_optional k).2 ≤ pMeasure p := by
  rcases hchk : p.check k with ⟨b, p₁⟩
  have hm : pMeasure p₁ ≤ pMeasure p := by
    have := check_measure p k
    rw [hchk] at this
    exact this
  cases b with
  | false => simp only [Parser.consume_optional, hchk]; exact hm
  | true =>
    simp only [Parser.consume_optional, hchk]
    exact le_trans (next_measure p₁) hm

end Koi

namespace Koi

theorem lexer_advance_measure (p : Parser) :
    pMeasure { p with lexer := (p.lexer.next_token).2 } ≤ pMeasure p := by
  simp only [pMeasure]
  have := lexer_next_rem p.lexer
  cases p.peeked_token <;> simp <;> omega

theorem parse_primary_shape (m : Nat) (p : Parser) :
    ∃ e, parse_primary (m + 1) p = some (e, (p.next_token).2) := by
  rcases hnx : p.next_token with ⟨tok, p1⟩
  simp only [parse_primary, hnx]
  cases hk : tok.raw.kind
  case Keyword k =>
    simp only [SyntaxToken.kind, hk]
    cases k <;> exact ⟨_, rfl⟩
  all_goals simp only [SyntaxToken.kind, hk]
  all_goals exact ⟨_, rfl⟩

theorem koi_mono (n : Nat) :
    (∀ p r, parse_expression n p = some r → pMeasure r.2 ≤ pMeasure p) ∧
    (∀ p r, parse_let_expression n p = some r →
      pMeasure r.2 ≤ pMeasure p) ∧
    (∀ p r, parse_if_expression n p = some r →
      pMeasure r.2 ≤ pMeasure p) ∧
    (∀ p r, parse_else_clause n p = some r → pMeasure r.2 ≤ pMeasure p) ∧
    (∀ mp p r, parse_binary_expression n mp p = some r →
      pMeasure r.2 ≤ pMeasure p) ∧
    (∀ lhs mp p r, binary_loop n lhs mp p = some r →
      pMeasure r.2 ≤ pMeasure p) ∧
    (∀ p r, parse_unary_expression n p = some r →
      pMeasure r.2 ≤ pMeasure p) ∧
    (∀ p r, parse_primary n p = some r → pMeasure r.2 ≤ pMeasure p) ∧
    (∀ p r, parse_program n p = some r → pMeasure r.2 ≤ pMeasure p) := by
  induction n with
  | zero =>
    exact ⟨fun p r h => Option.noConfusion h, fun p r h => Option.noConfusion h,
      fun p r h => Option.noConfusion h, fun p r h => Option.noConfusion h,
      fun mp p r h => Option.noConfusion h,
      fun lhs mp p r h => Option.noConfusion h,
      fun p r h => Option.noConfusion h, fun p r h => Option.noConfusion h,
      fun p r h => Option.noConfusion h⟩
  | succ m ih =>
    obtain ⟨ihE, ihLet, ihIf, ihElse, ihBin, ihLoop, ihUn, ihPrim, ihProg⟩ := ih
    have hPrim : ∀ p r, parse_primary (m + 1) p = some r →
        pMeasure r.2 ≤ pMeasure p := by
      intro p r h
      obtain ⟨e, he⟩ := parse_primary_shape m p
      rw [he] at h
      obtain rfl := Option.some.inj h
      show pMeasure (p.next_token).2 ≤ pMeasure p
      exact next_measure p
    have hLet : ∀ p r, parse_let_expression (m + 1) p = some r →
        pMeasure r.2 ≤ pMeasure p := by
      intro p r h
      simp only [parse_let_expression] at h
      rcases hnx : p.next_token with ⟨lk, p1⟩
      simp only [hnx] at h
      have hm1 : pMeasure p1 ≤ pMeasure p := by
        have := next_measure p; rw [hnx] at this; exact this
      cases hcs : p1.consume .Identifier with
      | none =>
        simp only [hcs] at h
        exact Option.noConfusion h
      | some pr =>
        rcases pr with ⟨idt, p2⟩
        simp only [hcs] at h
        have hm2 : pMeasure p2 ≤ pMeasure p1 :=
          consume_measure p1 _ idt p2 hcs
        cases hcs2 : p2.consume (.Symbol .Eq) with
        | none => simp only [hcs2] at h; exact Option.noConfusion h
        | some pr2 =>
          rcases pr2 with ⟨eqt, p3⟩
          simp only [hcs2] at h
          have hm3 : pMeasure p3 ≤ pMeasure p2 :=
            consume_measure p2 _ eqt p3 hcs2
          cases hpe : parse_expression m p3 with
          | none => simp only [hpe] at h; exact Option.noConfusion h
          | some pr3 =>
            rcases pr3 with ⟨e, p4⟩
            simp only [hpe] at h
            have hm4 : pMeasure p4 ≤ pMeasure p3 := ihE p3 (e, p4) hpe
            obtain rfl := Option.some.inj h
            show pMeasure p4 ≤ pMeasure p
            omega
    have hElse : ∀ p r, parse_else_clause (m + 1) p = some r →
        pMeasure r.2 ≤ pMeasure p := by
      intro p r h
      simp only [parse_else_clause] at h
      rcases hnx : p.next_token with ⟨ek, p1⟩
      simp only [hnx] at h
      have hm1 : pMeasure p1 ≤ pMeasure p := by
        have := next_measure p; rw [hnx] at this; exact this
      cases hcs : p1.consume (.Symbol .LBrace) with
      | none => simp only [hcs] at h; exact Option.noConfusion h
      | some pr =>
        rcases pr with ⟨ob, p2⟩
        simp only [hcs] at h
        have hm2 : pMeasure p2 ≤ pMeasure p1 :=
          consume_measure p1 _ ob p2 hcs
        cases hpe : parse_expression m p2 with
        | none => simp only [hpe] at h; exact Option.noConfusion h
        | some pr2 =>
          rcases pr2 with ⟨e, p3⟩
          simp only [hpe] at h
          have hm3 : pMeasure p3 ≤ pMeasure p2 := ihE p2 (e, p3) hpe
          cases hcs2 : p3.consume (.Symbol .RBrace) with
          | none => simp only [hcs2] at h; exact Option.noConfusion h
          | some pr3 =>
            rcases pr3 with ⟨cb, p4⟩
            simp only [hcs2] at h
            have hm4 : pMeasure p4 ≤ pMeasure p3 :=
              consume_measure p3 _ cb p4 hcs2
            obtain rfl := Option.some.inj h
            show pMeasure p4 ≤ pMeasure p
            omega
    have hIf : ∀ p r, parse_if_expression (m + 1) p = some r →
        pMeasure r.2 ≤ pMeasure p := by
      intro p r h
      simp only [parse_if_expression] at h
      rcases hnx : p.next_token with ⟨ik, p1⟩
      simp only [hnx] at h
      have hm1 : pMeasure p1 ≤ pMeasure p := by
        have := next_measure p; rw [hnx] at this; exact this
      cases hpe : parse_expression m p1 with
      | none => simp only [hpe] at h; exact Option.noConfusion h
      | some pr =>
        rcases pr with ⟨cond, p2⟩
        simp only [hpe] at h
        have hm2 : pMeasure p2 ≤ pMeasure p1 := ihE p1 (cond, p2) hpe
        cases hcs : p2.consume (.Symbol .LBrace) with
        | none => simp only [hcs] at h; exact Option.noConfusion h
        | some pr2 =>
          rcases pr2 with ⟨ob, p3⟩
          simp only [hcs] at h
          have hm3 : pMeasure p3 ≤ pMeasure p2 :=
            consume_measure p2 _ ob p3 hcs
          cases hpe2 : parse_expression m p3 with
          | none => simp only [hpe2] at h; exact Option.noConfusion h
          | some pr3 =>
            rcases pr3 with ⟨e, p4⟩
            simp only [hpe2] at h
            have hm4 : pMeasure p4 ≤ pMeasure p3 := ihE p3 (e, p4) hpe2
            cases hcs2 : p4.consume (.Symbol .RBrace) with
            | none => simp only [hcs2] at h; exact Option.noConfusion h
            | some pr4 =>
              rcases pr4 with ⟨cb, p5⟩
              simp only [hcs2] at h
              have hm5 : pMeasure p5 ≤ pMeasure p4 :=
                consume_measure p4 _ cb p5 hcs2
              rcases hchk : p5.check (.Keyword .Else) with ⟨b, p6⟩
              have hm6 : pMeasure p6 ≤ pMeasure p5 := by
                have := check_measure p5 (.Keyword .Else)
                rw [hchk] at this; exact this
              cases b with
              | true =>
                simp only [hchk] at h
                cases hec : parse_else_clause m p6 with
                | none => simp only [hec] at h; exact Option.noConfusion h
                | some pr5 =>
                  rcases pr5 with ⟨ec, p7⟩
                  simp only [hec] at h
                  have hm7 : pMeasure p7 ≤ pMeasure p6 :=
                    ihElse p6 (ec, p7) hec
                  obtain rfl := Option.some.inj h
                  show pMeasure p7 ≤ pMeasure p
                  omega
              | false =>
                simp only [hchk] at h
                obtain rfl := Option.some.inj h
                show pMeasure p6 ≤ pMeasure p
                omega
    have hUn : ∀ p r, parse_unary_expression (m + 1) p = some r →
        pMeasure r.2 ≤ pMeasure p := by
      intro p r h
      simp only [parse_unary_expression] at h
      rcases hpk : p.peek with ⟨o, p1⟩
      have hm1 : pMeasure p1 ≤ pMeasure p := by
        have := peek_measure p; rw [hpk] at this; exact this
      cases o with
      | none =>
        simp only [hpk] at h
        exact le_trans (ihPrim p1 r h) hm1
      | some tok =>
        simp only [hpk] at h
        cases hk : tok.raw.kind
        case Symbol sym =>
          simp only [SyntaxToken.kind, hk] at h
          rcases hnx : p1.next_token with ⟨op, p2⟩
          simp only [hnx] at h
          have hm2 : pMeasure p2 ≤ pMeasure p1 := by
            have := next_measure p1; rw [hnx] at this; exact this
          cases hpb : prefix_binding_power sym with
          | some rp =>
            simp only [hpb] at h
            cases hpe : parse_binary_expression m rp p2 with
            | none => simp only [hpe] at h; exact Option.noConfusion h
            | some pr =>
              rcases pr with ⟨operand, p3⟩
              simp only [hpe] at h
              have hm3 : pMeasure p3 ≤ pMeasure p2 :=
                ihBin rp p2 (operand, p3) hpe
              obtain rfl := Option.some.inj h
              show pMeasure p3 ≤ pMeasure p
              omega
          | none =>
            simp only [hpb] at h
            rcases hlx : p2.lexer.next_token with ⟨t2, lx⟩
            simp only [hlx] at h
            obtain rfl := Option.some.inj h
            show pMeasure { p2 with lexer := lx } ≤ pMeasure p
            have hadv : pMeasure { p2 with lexer := (p2.lexer.next_token).2 } ≤
                pMeasure p2 := lexer_advance_measure p2
            rw [hlx] at hadv
            have hadv2 : pMeasure { p2 with lexer := lx } ≤ pMeasure p2 := hadv
            omega
        all_goals
          simp only [SyntaxToken.kind, hk] at h
        all_goals
          exact le_trans (ihPrim p1 r h) hm1
    have hLoop : ∀ lhs mp p r, binary_loop (m + 1) lhs mp p = some r →
        pMeasure r.2 ≤ pMeasure p := by
      intro lhs mp p r h
      simp only [binary_loop] at h
      rcases hpk : p.peek with ⟨o, p1⟩
      have hm1 : pMeasure p1 ≤ pMeasure p := by
        have := peek_measure p; rw [hpk] at this; exact this
      cases o with
      | none =>
        simp only [hpk] at h
        obtain rfl := Option.some.inj h
        exact hm1
      | some tok =>
        simp only [hpk] at h
        cases hk : tok.raw.kind
        case Symbol sym =>
          simp only [SyntaxToken.kind, hk] at h
          cases hib : infix_binding_power sym with
          | none =>
            simp only [hib] at h
            obtain rfl := Option.some.inj h
            exact hm1
          | some pr =>
            rcases pr with ⟨lp, rp⟩
            simp only [hib] at h
            by_cases hlt : lp < mp
            · rw [if_pos hlt] at h
              obtain rfl := Option.some.inj h
              exact hm1
            · rw [if_neg hlt] at h
              rcases hnx : p1.next_token with ⟨op, p2⟩
              simp only [hnx] at h
              have hm2 : pMeasure p2 ≤ pMeasure p1 := by
                have := next_measure p1; rw [hnx] at this; exact this
              cases hpe : parse_binary_expression m rp p2 with
              | none => simp only [hpe] at h; exact Option.noConfusion h
              | some pr2 =>
                rcases pr2 with ⟨rhs, p3⟩
                simp only [hpe] at h
                have hm3 : pMeasure p3 ≤ pMeasure p2 :=
                  ihBin rp p2 (rhs, p3) hpe
                have hm4 : pMeasure r.2 ≤ pMeasure p3 :=
                  ihLoop _ mp p3 r h
                omega
        all_goals
          simp only [SyntaxToken.kind, hk] at h
        all_goals
          obtain rfl := Option.some.inj h
        all_goals
          exact hm1
    have hBin : ∀ mp p r, parse_binary_expression (m + 1) mp p = some r →
        pMeasure r.2 ≤ pMeasure p := by
      intro mp p r h
      simp only [parse_binary_expression] at h
      cases hpu : parse_unary_expression m p with
      | none => simp only [hpu] at h; exact Option.noConfusion h
      | some pr =>
        rcases pr with ⟨lhs, p1⟩
        simp only [hpu] at h
        have hm1 : pMeasure p1 ≤ pMeasure p := ihUn p (lhs, p1) hpu
        have hm2 : pMeasure r.2 ≤ pMeasure p1 := ihLoop lhs mp p1 r h
        omega
    have hExpr : ∀ p r, parse_expression (m + 1) p = some r →
        pMeasure r.2 ≤ pMeasure p := by
      intro p r h
      simp only [parse_expression] at h
      rcases hc1 : p.check (.Keyword .Let) with ⟨b1, p1⟩
      have hm1 : pMeasure p1 ≤ pMeasure p := by
        have := check_measure p (.Keyword .Let); rw [hc1] at this
        exact this
      cases b1 with
      | true =>
        simp only [hc1] at h
        exact le_trans (ihLet p1 r h) hm1
      | false =>
        simp only [hc1] at h
        rcases hc2 : p1.check (.Keyword .If) with ⟨b2, p2⟩
        have hm2 : pMeasure p2 ≤ pMeasure p1 := by
          have := check_measure p1 (.Keyword .If); rw [hc2] at this
          exact this
        cases b2 with
        | true =>
          simp only [hc2] at h
          exact le_trans (le_trans (ihIf p2 r h) hm2) hm1
        | false =>
          simp only [hc2] at h
          exact le_trans (le_trans (ihBin 0 p2 r h) hm2) hm1
    have hProg : ∀ p r, parse_program (m + 1) p = some r →
        pMeasure r.2 ≤ pMeasure p := by
      intro p r h
      simp only [parse_program] at h
      rcases hco : p.consume_optional .Eof with ⟨b, p1⟩
      have hm1 : pMeasure p1 ≤ pMeasure p := by
        have := consume_optional_measure p .Eof; rw [hco] at this
        exact this
      cases b with
      | true =>
        simp only [hco] at h
        obtain rfl := Option.some.inj h
        exact hm1
      | false =>
        simp only [hco] at h
        cases hpe : parse_expression m p1 with
        | none => simp only [hpe] at h; exact Option.noConfusion h
        | some pr =>
          rcases pr with ⟨e, p2⟩
          simp only [hpe] at h
          have hm2 : pMeasure p2 ≤ pMeasure p1 := ihE p1 (e, p2) hpe
          obtain rfl := Option.some.inj h
          show pMeasure p2 ≤ pMeasure p
          omega
    exact ⟨hExpr, hLet, hIf, hElse, hBin, hLoop, hUn, hPrim, hProg⟩

end Koi

namespace Koi

theorem tokenWeight_symbol (t : SyntaxToken) (sym : Symbol)
    (h : t.raw.kind = .Symbol sym) : tokenWeight t = 1 := by
  simp [tokenWeight, SyntaxToken.kind, h]

theorem tokenWeight_keyword (t : SyntaxToken) (k : Keyword)
    (h : t.kind = .Keyword k) : tokenWeight t = 1 := by
  simp [tokenWeight, h]

theorem koi_adequacy (n : Nat) :
    (∀ p, 3 * pMeasure p + 4 ≤ n →
      ∃ r, parse_expression n p = some r) ∧
    (∀ p t, p.peeked_token = some t → tokenWeight t = 1 →
      3 * pMeasure p + 2 ≤ n → ∃ r, parse_let_expression n p = some r) ∧
    (∀ p t, p.peeked_token = some t → tokenWeight t = 1 →
      3 * pMeasure p + 2 ≤ n → ∃ r, parse_if_expression n p = some r) ∧
    (∀ p t, p.peeked_token = some t → tokenWeight t = 1 →
      3 * pMeasure p + 2 ≤ n → ∃ r, parse_else_clause n p = some r) ∧
    (∀ mp p, 2 * pMeasure p + 3 ≤ n →
      ∃ r, parse_binary_expression n mp p = some r) ∧
    (∀ lhs mp p, 2 * pMeasure p + 2 ≤ n →
      ∃ r, binary_loop n lhs mp p = some r) ∧
    (∀ p, 2 * pMeasure p + 2 ≤ n →
      ∃ r, parse_unary_expression n p = some r) ∧
    (∀ p, 1 ≤ n → ∃ r, parse_primary n p = some r) ∧
    (∀ p, 3 * pMeasure p + 5 ≤ n → ∃ r, parse_program n p = some r) := by
  induction n with
  | zero =>
    refine ⟨fun p h => absurd h (by omega), fun p t _ _ h => absurd h (by omega),
      fun p t _ _ h => absurd h (by omega), fun p t _ _ h => absurd h (by omega),
      fun mp p h => absurd h (by omega), fun lhs mp p h => absurd h (by omega),
      fun p h => absurd h (by omega), fun p h => absurd h (by omega),
      fun p h => absurd h (by omega)⟩
  | succ m ih =>
    obtain ⟨aE, aLet, aIf, aElse, aBin, aLoop, aUn, aPrim, aProg⟩ := ih
    obtain ⟨mE, mLet, mIf, mElse, mBin, mLoop, mUn, mPrim, mProg⟩ := koi_mono m
    have hPrim : ∀ p, 1 ≤ m + 1 → ∃ r, parse_primary (m + 1) p = some r := by
      intro p _
      obtain ⟨e, he⟩ := parse_primary_shape m p
      exact ⟨(e, (p.next_token).2), he⟩
    have hUn : ∀ p, 2 * pMeasure p + 2 ≤ m + 1 →
        ∃ r, parse_unary_expression (m + 1) p = some r := by
      intro p hn
      simp only [parse_unary_expression]
      rcases hpk : p.peek with ⟨o, p1⟩
      have hm1 : pMeasure p1 ≤ pMeasure p := by
        have := peek_measure p; rw [hpk] at this; exact this
      cases o with
      | none =>
        obtain ⟨r, hr⟩ := aPrim p1 (by omega)
        exact ⟨r, by simp only [hpk, hr]⟩
      | some tok =>
        cases hk : tok.raw.kind
        case Symbol sym =>
          have hbuf : p1.peeked_token = some tok := peek_buffers p tok p1 hpk
          have hw : tokenWeight tok = 1 := tokenWeight_symbol tok sym hk
          rcases hnx : p1.next_token with ⟨op, p2⟩
          have hm2 : pMeasure p2 + 1 ≤ pMeasure p1 := by
            have := next_measure_strict p1 tok hbuf hw
            rw [hnx] at this; exact this
          cases hpb : prefix_binding_power sym with
          | some rp =>
            obtain ⟨⟨operand, p3⟩, hr⟩ := aBin rp p2 (by omega)
            refine ⟨(.UnaryExpressionNode op operand, p3), ?_⟩
            simp only [hpk, SyntaxToken.kind, hk, hnx, hpb, hr]
          | none =>
            rcases hlx : p2.lexer.next_token with ⟨t2, lx⟩
            refine ⟨(.UnexpectedTokenNode t2, { p2 with lexer := lx }), ?_⟩
            simp only [hpk, SyntaxToken.kind, hk, hnx, hpb, hlx]
        all_goals
          obtain ⟨r, hr⟩ := aPrim p1 (by omega)
        all_goals
          exact ⟨r, by simp only [hpk, SyntaxToken.kind, hk, hr]⟩
    have hLoop : ∀ lhs mp p, 2 * pMeasure p + 2 ≤ m + 1 →
        ∃ r, binary_loop (m + 1) lhs mp p = some r := by
      intro lhs mp p hn
      simp only [binary_loop]
      rcases hpk : p.peek with ⟨o, p1⟩
      have hm1 : pMeasure p1 ≤ pMeasure p := by
        have := peek_measure p; rw [hpk] at this; exact this
      cases o with
      | none => exact ⟨(lhs, p1), by simp only [hpk]⟩
      | some tok =>
        cases hk : tok.raw.kind
        case Symbol sym =>
          have hbuf : p1.peeked_token = some tok := peek_buffers p tok p1 hpk
          have hw : tokenWeight tok = 1 := tokenWeight_symbol tok sym hk
          cases hib : infix_binding_power sym with
          | none =>
            exact ⟨(lhs, p1), by simp only [hpk, SyntaxToken.kind, hk, hib]⟩
          | some pr =>
            rcases pr with ⟨lp, rp⟩
            by_cases hlt : lp < mp
            · refine ⟨(lhs, p1), ?_⟩
              simp only [hpk, SyntaxToken.kind, hk, hib, if_pos hlt]
            · rcases hnx : p1.next_token with ⟨op, p2⟩
              have hm2 : pMeasure p2 + 1 ≤ pMeasure p1 := by
                have := next_measure_strict p1 tok hbuf hw
                rw [hnx] at this; exact this
              obtain ⟨⟨rhs, p3⟩, hr⟩ := aBin rp p2 (by omega)
              have hm3 : pMeasure p3 ≤ pMeasure p2 :=
                mBin rp p2 (rhs, p3) hr
              obtain ⟨r4, hr4⟩ := aLoop (.BinaryExpressionNode op lhs rhs)
                mp p3 (by omega)
              refine ⟨r4, ?_⟩
              simp only [hpk, SyntaxToken.kind, hk, hib, if_neg hlt, hnx,
                hr, hr4]
        all_goals
          exact ⟨(lhs, p1), by simp only [hpk, SyntaxToken.kind, hk]⟩
    have hBin : ∀ mp p, 2 * pMeasure p + 3 ≤ m + 1 →
        ∃ r, parse_binary_expression (m + 1) mp p = some r := by
      intro mp p hn
      simp only [parse_binary_expression]
      obtain ⟨⟨lhs, p1⟩, hu⟩ := aUn p (by omega)
      have hm1 : pMeasure p1 ≤ pMeasure p := mUn p (lhs, p1) hu
      obtain ⟨r, hr⟩ := aLoop lhs mp p1 (by omega)
      exact ⟨r, by simp only [hu, hr]⟩
    have hLet : ∀ p t, p.peeked_token = some t → tokenWeight t = 1 →
        3 * pMeasure p + 2 ≤ m + 1 →
        ∃ r, parse_let_expression (m + 1) p = some r := by
      intro p t hbuf hw hn
      simp only [parse_let_expression]
      rcases hnx : p.next_token with ⟨lk, p1⟩
      have hm1 : pMeasure p1 + 1 ≤ pMeasure p := by
        have := next_measure_strict p t hbuf hw
        rw [hnx] at this; exact this
      obtain ⟨idt, p2, hcs, hm2⟩ := consume_some p1 .Identifier
      obtain ⟨eqt, p3, hcs2, hm3⟩ := consume_some p2 (.Symbol .Eq)
      obtain ⟨⟨e, p4⟩, hpe⟩ := aE p3 (by omega)
      refine ⟨(.LocalBindingExpressionNode lk idt eqt e, p4), ?_⟩
      simp only [hnx, hcs, hcs2, hpe]
    have hElse : ∀ p t, p.peeked_token = some t → tokenWeight t = 1 →
        3 * pMeasure p + 2 ≤ m + 1 →
        ∃ r, parse_else_clause (m + 1) p = some r := by
      intro p t hbuf hw hn
      simp only [parse_else_clause]
      rcases hnx : p.next_token with ⟨ek, p1⟩
      have hm1 : pMeasure p1 + 1 ≤ pMeasure p := by
        have := next_measure_strict p t hbuf hw
        rw [hnx] at this; exact this
      obtain ⟨ob, p2, hcs, hm2⟩ := consume_some p1 (.Symbol .LBrace)
      obtain ⟨⟨e, p3⟩, hpe⟩ := aE p2 (by omega)
      have hm3 : pMeasure p3 ≤ pMeasure p2 := mE p2 (e, p3) hpe
      obtain ⟨cb, p4, hcs2, hm4⟩ := consume_some p3 (.Symbol .RBrace)
      refine ⟨(.mk ek ob e cb, p4), ?_⟩
      simp only [hnx, hcs, hpe, hcs2]
    have hIf : ∀ p t, p.peeked_token = some t → tokenWeight t = 1 →
        3 * pMeasure p + 2 ≤ m + 1 →
        ∃ r, parse_if_expression (m + 1) p = some r := by
      intro p t hbuf hw hn
      simp only [parse_if_expression]
      rcases hnx : p.next_token with ⟨ik, p1⟩
      have hm1 : pMeasure p1 + 1 ≤ pMeasure p := by
        have := next_measure_strict p t hbuf hw
        rw [hnx] at this; exact this
      obtain ⟨⟨cond, p2⟩, hpe⟩ := aE p1 (by omega)
      have hm2 : pMeasure p2 ≤ pMeasure p1 := mE p1 (cond, p2) hpe
      obtain ⟨ob, p3, hcs, hm3⟩ := consume_some p2 (.Symbol .LBrace)
      obtain ⟨⟨e, p4⟩, hpe2⟩ := aE p3 (by omega)
      have hm4 : pMeasure p4 ≤ pMeasure p3 := mE p3 (e, p4) hpe2
      obtain ⟨cb, p5, hcs2, hm5⟩ := consume_some p4 (.Symbol .RBrace)
      rcases hchk : p5.check (.Keyword .Else) with ⟨b, p6⟩
      have hm6 : pMeasure p6 ≤ pMeasure p5 := by
        have := check_measure p5 (.Keyword .Else)
        rw [hchk] at this; exact this
      cases b with
      | true =>
        obtain ⟨t6, hbuf6, hk6⟩ := check_true_buffered p5 _ p6 hchk
        have hw6 : tokenWeight t6 = 1 := tokenWeight_keyword t6 .Else hk6
        obtain ⟨⟨ec, p7⟩, hec⟩ := aElse p6 t6 hbuf6 hw6 (by omega)
        refine ⟨(.IfExpressionNode ik cond ob e cb (some ec), p7), ?_⟩
        simp only [hnx, hpe, hcs, hpe2, hcs2, hchk, hec]
      | false =>
        refine ⟨(.IfExpressionNode ik cond ob e cb none, p6), ?_⟩
        simp only [hnx, hpe, hcs, hpe2, hcs2, hchk]
    have hExpr : ∀ p, 3 * pMeasure p + 4 ≤ m + 1 →
        ∃ r, parse_expression (m + 1) p = some r := by
      intro p hn
      simp only [parse_expression]
      rcases hc1 : p.check (.Keyword .Let) with ⟨b1, p1⟩
      have hm1 : pMeasure p1 ≤ pMeasure p := by
        have := check_measure p (.Keyword .Let); rw [hc1] at this
        exact this
      cases b1 with
      | true =>
        obtain ⟨t1, hbuf1, hk1⟩ := check_true_buffered p _ p1 hc1
        have hw1 : tokenWeight t1 = 1 := tokenWeight_keyword t1 .Let hk1
        obtain ⟨r, hr⟩ := aLet p1 t1 hbuf1 hw1 (by omega)
        exact ⟨r, by simp only [hc1, hr]⟩
      | false =>
        rcases hc2 : p1.check (.Keyword .If) with ⟨b2, p2⟩
        have hm2 : pMeasure p2 ≤ pMeasure p1 := by
          have := check_measure p1 (.Keyword .If); rw [hc2] at this
          exact this
        cases b2 with
        | true =>
          obtain ⟨t2, hbuf2, hk2⟩ := check_true_buffered p1 _ p2 hc2
          have hw2 : tokenWeight t2 = 1 := tokenWeight_keyword t2 .If hk2
          obtain ⟨r, hr⟩ := aIf p2 t2 hbuf2 hw2 (by omega)
          exact ⟨r, by simp only [hc1, hc2, hr]⟩
        | false =>
          obtain ⟨r, hr⟩ := aBin 0 p2 (by omega)
          exact ⟨r, by simp only [hc1, hc2, hr]⟩
    have hProg : ∀ p, 3 * pMeasure p + 5 ≤ m + 1 →
        ∃ r, parse_program (m + 1) p = some r := by
      intro p hn
      simp only [parse_program]
      rcases hco : p.consume_optional .Eof with ⟨b, p1⟩
      have hm1 : pMeasure p1 ≤ pMeasure p := by
        have := consume_optional_measure p .Eof; rw [hco] at this
        exact this
      cases b with
      | true => exact ⟨(.Eof, p1), by simp only [hco]⟩
      | false =>
        obtain ⟨⟨e, p2⟩, hpe⟩ := aE p1 (by omega)
        exact ⟨(.ExpressionNode e, p2), by simp only [hco, hpe]⟩
    exact ⟨hExpr, hLet, hIf, hElse, hBin, hLoop, hUn, hPrim, hProg⟩

end Koi

namespace Koi

theorem check_of_buffered (p : Parser) (t : SyntaxToken) (k : TokenKind)
    (hp : p.peeked_token = some t) :
    p.check k = (decide (t.kind = k), p) := by
  simp [Parser.check, peek_of_buffered p t hp]

theorem primary_strict (n : Nat) (p : Parser) (t : SyntaxToken)
    (hbuf : p.peeked_token = some t) (hw : tokenWeight t = 1)
    (r : Expr × Parser) (h : parse_primary n p = some r) :
    pMeasure r.2 + 1 ≤ pMeasure p := by
  cases n with
  | zero => exact Option.noConfusion h
  | succ m =>
    obtain ⟨e, he⟩ := parse_primary_shape m p
    rw [he] at h
    obtain rfl := Option.some.inj h
    show pMeasure (p.next_token).2 + 1 ≤ pMeasure p
    exact next_measure_strict p t hbuf hw

theorem unary_strict (n : Nat) (p : Parser) (t : SyntaxToken)
    (hbuf : p.peeked_token = some t) (hw : tokenWeight t = 1)
    (r : Expr × Parser) (h : parse_unary_expression n p = some r) :
    pMeasure r.2 + 1 ≤ pMeasure p := by
  cases n with
  | zero => exact Option.noConfusion h
  | succ m =>
    obtain ⟨mE, mLet, mIf, mElse, mBin, mLoop, mUn, mPrim, mProg⟩ :=
      koi_mono m
    simp only [parse_unary_expression] at h
    rw [peek_of_buffered p t hbuf] at h
    cases hk : t.raw.kind
    case Symbol sym =>
      simp only [SyntaxToken.kind, hk] at h
      rcases hnx : p.next_token with ⟨op, p2⟩
      simp only [hnx] at h
      have hm2 : pMeasure p2 + 1 ≤ pMeasure p := by
        have := next_measure_strict p t hbuf hw
        rw [hnx] at this; exact this
      cases hpb : prefix_binding_power sym with
      | some rp =>
        simp only [hpb] at h
        cases hpe : parse_binary_expression m rp p2 with
        | none => simp only [hpe] at h; exact Option.noConfusion h
        | some pr =>
          rcases pr with ⟨operand, p3⟩
          simp only [hpe] at h
          have hm3 : pMeasure p3 ≤ pMeasure p2 :=
            mBin rp p2 (operand, p3) hpe
          obtain rfl := Option.some.inj h
          show pMeasure p3 + 1 ≤ pMeasure p
          omega
      | none =>
        simp only [hpb] at h
        rcases hlx : p2.lexer.next_token with ⟨t2, lx⟩
        simp only [hlx] at h
        obtain rfl := Option.some.inj h
        show pMeasure { p2 with lexer := lx } + 1 ≤ pMeasure p
        have hadv : pMeasure { p2 with lexer := (p2.lexer.next_token).2 } ≤
            pMeasure p2 := lexer_advance_measure p2
        rw [hlx] at hadv
        have hadv2 : pMeasure { p2 with lexer := lx } ≤ pMeasure p2 := hadv
        omega
    all_goals
      simp only [SyntaxToken.kind, hk] at h
    all_goals
      exact primary_strict m p t hbuf hw r h

theorem binary_strict (n : Nat) (p : Parser) (t : SyntaxToken)
    (hbuf : p.peeked_token = some t) (hw : tokenWeight t = 1)
    (mp : Nat) (r : Expr × Parser)
    (h : parse_binary_expression n mp p = some r) :
    pMeasure r.2 + 1 ≤ pMeasure p := by
  cases n with
  | zero => exact Option.noConfusion h
  | succ m =>
    obtain ⟨mE, mLet, mIf, mElse, mBin, mLoop, mUn, mPrim, mProg⟩ :=
      koi_mono m
    simp only [parse_binary_expression] at h
    cases hpu : parse_unary_expression m p with
    | none => simp only [hpu] at h; exact Option.noConfusion h
    | some pr =>
      rcases pr with ⟨lhs, p1⟩
      simp only [hpu] at h
      have hm1 : pMeasure p1 + 1 ≤ pMeasure p :=
        unary_strict m p t hbuf hw (lhs, p1) hpu
      have hm2 : pMeasure r.2 ≤ pMeasure p1 := mLoop lhs mp p1 r h
      omega

theorem let_strict (n : Nat) (p : Parser) (t : SyntaxToken)
    (hbuf : p.peeked_token = some t) (hw : tokenWeight t = 1)
    (r : Expr × Parser) (h : parse_let_expression n p = some r) :
    pMeasure r.2 + 1 ≤ pMeasure p := by
  cases n with
  | zero => exact Option.noConfusion h
  | succ m =>
    obtain ⟨mE, mLet, mIf, mElse, mBin, mLoop, mUn, mPrim, mProg⟩ :=
      koi_mono m
    simp only [parse_let_expression] at h
    rcases hnx : p.next_token with ⟨lk, p1⟩
    simp only [hnx] at h
    have hm1 : pMeasure p1 + 1 ≤ pMeasure p := by
      have := next_measure_strict p t hbuf hw
      rw [hnx] at this; exact this
    cases hcs : p1.consume .Identifier with
    | none => simp only [hcs] at h; exact Option.noConfusion h
    | some pr =>
      rcases pr with ⟨idt, p2⟩
      simp only [hcs] at h
      have hm2 : pMeasure p2 ≤ pMeasure p1 := consume_measure p1 _ idt p2 hcs
      cases hcs2 : p2.consume (.Symbol .Eq) with
      | none => simp only [hcs2] at h; exact Option.noConfusion h
      | some pr2 =>
        rcases pr2 with ⟨eqt, p3⟩
        simp only [hcs2] at h
        have hm3 : pMeasure p3 ≤ pMeasure p2 :=
          consume_measure p2 _ eqt p3 hcs2
        cases hpe : parse_expression m p3 with
        | none => simp only [hpe] at h; exact Option.noConfusion h
        | some pr3 =>
          rcases pr3 with ⟨e, p4⟩
          simp only [hpe] at h
          have hm4 : pMeasure p4 ≤ pMeasure p3 := mE p3 (e, p4) hpe
          obtain rfl := Option.some.inj h
          show pMeasure p4 + 1 ≤ pMeasure p
          omega

theorem if_strict (n : Nat) (p : Parser) (t : SyntaxToken)
    (hbuf : p.peeked_token = some t) (hw : tokenWeight t = 1)
    (r : Expr × Parser) (h : parse_if_expression n p = some r) :
    pMeasure r.2 + 1 ≤ pMeasure p := by
  cases n with
  | zero => exact Option.noConfusion h
  | succ m =>
    obtain ⟨mE, mLet, mIf, mElse, mBin, mLoop, mUn, mPrim, mProg⟩ :=
      koi_mono m
    simp only [parse_if_expression] at h
    rcases hnx : p.next_token with ⟨ik, p1⟩
    simp only [hnx] at h
    have hm1 : pMeasure p1 + 1 ≤ pMeasure p := by
      have := next_measure_strict p t hbuf hw
      rw [hnx] at this; exact this
    cases hpe : parse_expression m p1 with
    | none => simp only [hpe] at h; exact Option.noConfusion h
    | some pr =>
      rcases pr with ⟨cond, p2⟩
      simp only [hpe] at h
      have hm2 : pMeasure p2 ≤ pMeasure p1 := mE p1 (cond, p2) hpe
      cases hcs : p2.consume (.Symbol .LBrace) with
      | none => simp only [hcs] at h; exact Option.noConfusion h
      | some pr2 =>
        rcases pr2 with ⟨ob, p3⟩
        simp only [hcs] at h
        have hm3 : pMeasure p3 ≤ pMeasure p2 := consume_measure p2 _ ob p3 hcs
        cases hpe2 : parse_expression m p3 with
        | none => simp only [hpe2] at h; exact Option.noConfusion h
        | some pr3 =>
          rcases pr3 with ⟨e, p4⟩
          simp only [hpe2] at h
          have hm4 : pMeasure p4 ≤ pMeasure p3 := mE p3 (e, p4) hpe2
          cases hcs2 : p4.consume (.Symbol .RBrace) with
          | none => simp only [hcs2] at h; exact Option.noConfusion h
          | some pr4 =>
            rcases pr4 with ⟨cb, p5⟩
            simp only [hcs2] at h
            have hm5 : pMeasure p5 ≤ pMeasure p4 :=
              consume_measure p4 _ cb p5 hcs2
            rcases hchk : p5.check (.Keyword .Else) with ⟨b, p6⟩
            have hm6 : pMeasure p6 ≤ pMeasure p5 := by
              have := check_measure p5 (.Keyword .Else)
              rw [hchk] at this; exact this
            cases b with
            | true =>
              simp only [hchk] at h
              cases hec : parse_else_clause m p6 with
              | none => simp only [hec] at h; exact Option.noConfusion h
              | some pr5 =>
                rcases pr5 with ⟨ec, p7⟩
                simp only [hec] at h
                have hm7 : pMeasure p7 ≤ pMeasure p6 := mElse p6 (ec, p7) hec
                obtain rfl := Option.some.inj h
                show pMeasure p7 + 1 ≤ pMeasure p
                omega
            | false =>
              simp only [hchk] at h
              obtain rfl := Option.some.inj h
              show pMeasure p6 + 1 ≤ pMeasure p
              omega

theorem expr_strict (n : Nat) (p : Parser) (t : SyntaxToken)
    (hbuf : p.peeked_token = some t) (hw : tokenWeight t = 1)
    (r : Expr × Parser) (h : parse_expression n p = some r) :
    pMeasure r.2 + 1 ≤ pMeasure p := by
  cases n with
  | zero => exact Option.noConfusion h
  | succ m =>
    simp only [parse_expression] at h
    by_cases hL : t.kind = .Keyword .Let
    · have hc1 : p.check (.Keyword .Let) = (true, p) := by
        rw [check_of_buffered p t _ hbuf]
        simp [hL]
      simp only [hc1] at h
      exact let_strict m p t hbuf hw r h
    · have hc1 : p.check (.Keyword .Let) = (false, p) := by
        rw [check_of_buffered p t _ hbuf]
        simp [hL]
      simp only [hc1] at h
      by_cases hI : t.kind = .Keyword .If
      · have hc2 : p.check (.Keyword .If) = (true, p) := by
          rw [check_of_buffered p t _ hbuf]
          simp [hI]
        simp only [hc2] at h
        exact if_strict m p t hbuf hw r h
      · have hc2 : p.check (.Keyword .If) = (false, p) := by
          rw [check_of_buffered p t _ hbuf]
          simp [hI]
        simp only [hc2] at h
        exact binary_strict m p t hbuf hw 0 r h

end Koi

namespace Koi

theorem loopMeasure_le (q : Parser) : loopMeasure q ≤ 2 * pMeasure q + 1 := by
  unfold loopMeasure
  cases hq : q.peeked_token with
  | none => simp only [hq]; omega
  | some t => simp only [hq]; omega

theorem tokenWeight_one_of_ne_eof (t : SyntaxToken) (h : t.kind ≠ .Eof) :
    tokenWeight t = 1 := by
  unfold tokenWeight
  cases hk : t.kind <;> simp_all

theorem prog_progress (n : Nat) (p : Parser) (r : Node × Parser)
    (hrem : p.lexer.rem ≠ []) (h : parse_program n p = some r) :
    loopMeasure r.2 + 1 ≤ loopMeasure p := by
  cases n with
  | zero => exact Option.noConfusion h
  | succ m =>
    simp only [parse_program] at h
    cases hb : p.peeked_token with
    | some t =>
      by_cases hEof : t.kind = .Eof
      · have hco : p.consume_optional .Eof =
            (true, { p with peeked_token := none }) := by
          simp [Parser.consume_optional, Parser.check, Parser.peek, hb,
            hEof, Parser.next_token]
        simp only [hco] at h
        obtain rfl := Option.some.inj h
        simp only [loopMeasure, pMeasure, hb, hEof, tokenWeight]
        omega
      · have hw : tokenWeight t = 1 := tokenWeight_one_of_ne_eof t hEof
        have hco : p.consume_optional .Eof = (false, p) := by
          simp [Parser.consume_optional, Parser.check, Parser.peek, hb, hEof]
        simp only [hco] at h
        cases hpe : parse_expression m p with
        | none => simp only [hpe] at h; exact Option.noConfusion h
        | some pr =>
          rcases pr with ⟨e, p1⟩
          simp only [hpe] at h
          have hs : pMeasure p1 + 1 ≤ pMeasure p :=
            expr_strict m p t hb hw (e, p1) hpe
          obtain rfl := Option.some.inj h
          have h1 : loopMeasure p1 ≤ 2 * pMeasure p1 + 1 := loopMeasure_le p1
          have h2 : loopMeasure p = 2 * pMeasure p := by
            simp [loopMeasure, hb, hw]
          show loopMeasure p1 + 1 ≤ loopMeasure p
          omega
    | none =>
      rcases hr : p.lexer.rem with _ | ⟨t, ts⟩
      · exact absurd hr hrem
      by_cases hEof : t.kind = .Eof
      · have hco : p.consume_optional .Eof =
            (true, ⟨⟨ts, t.span.start + t.span.length⟩, none⟩) := by
          simp [Parser.consume_optional, Parser.check, Parser.peek, hb,
            Lexer.next_token, hr, hEof, Parser.next_token]
        simp only [hco] at h
        obtain rfl := Option.some.inj h
        simp only [loopMeasure, pMeasure, hb, hr, List.length_cons]
        omega
      · have hw : tokenWeight t = 1 := tokenWeight_one_of_ne_eof t hEof
        have hco : p.consume_optional .Eof =
            (false, ⟨⟨ts, t.span.start + t.span.length⟩, some t⟩) := by
          simp [Parser.consume_optional, Parser.check, Parser.peek, hb,
            Lexer.next_token, hr, hEof]
        simp only [hco] at h
        cases hpe :
            parse_expression m ⟨⟨ts, t.span.start + t.span.length⟩, some t⟩ with
        | none => simp only [hpe] at h; exact Option.noConfusion h
        | some pr =>
          rcases pr with ⟨e, p1⟩
          simp only [hpe] at h
          have hs : pMeasure p1 + 1 ≤
              pMeasure ⟨⟨ts, t.span.start + t.span.length⟩, some t⟩ :=
            expr_strict m _ t rfl hw (e, p1) hpe
          have hmid : pMeasure ⟨⟨ts, t.span.start + t.span.length⟩, some t⟩ =
              ts.length + 1 := by
            simp [pMeasure, hw]
          obtain rfl := Option.some.inj h
          have h1 : loopMeasure p1 ≤ 2 * pMeasure p1 + 1 := loopMeasure_le p1
          have h2 : loopMeasure p = 2 * (ts.length + 1) := by
            simp [loopMeasure, pMeasure, hb, hr]
          show loopMeasure p1 + 1 ≤ loopMeasure p
          omega

end Koi

namespace Koi

theorem parse_loop_adequacy (w : Nat) :
    ∀ (n : Nat) (p : Parser) (nodes : List Node),
      loopMeasure p ≤ w → 2 * w + 6 ≤ n →
      ∃ r, parse_loop n p nodes = some r := by
  induction w using Nat.strong_induction_on with
  | _ w ih =>
    intro n p nodes hw hn
    cases n with
    | zero => omega
    | succ m =>
      by_cases hend : p.lexer.is_at_end = true
      · exact ⟨(⟨nodes⟩, p), by simp [parse_loop, hend]⟩
      · have hrem : p.lexer.rem ≠ [] := by
          intro hcon
          exact hend (by simp [Lexer.is_at_end, hcon])
        have hμ : 2 * pMeasure p ≤ loopMeasure p := by
          unfold loopMeasure
          exact Nat.le_add_right _ _
        obtain ⟨⟨nd, p1⟩, hpr⟩ :=
          (koi_adequacy m).2.2.2.2.2.2.2.2 p (by omega)
        have hstep : loopMeasure p1 + 1 ≤ loopMeasure p :=
          prog_progress m p (nd, p1) hrem hpr
        obtain ⟨r, hr⟩ := ih (loopMeasure p1) (by omega) m p1 (nodes ++ [nd])
          (le_refl _) (by omega)
        refine ⟨r, ?_⟩
        simp only [parse_loop]
        rw [if_neg hend]
        simp only [hpr]
        exact hr

end Koi

/-- C1: for every input token stream — the empty one included — `parse`
terminates within its fuel budget (`parseFuel`, linear in the token
count), never fails, and yields exactly one syntax tree rooting all
top-level nodes. -/
theorem koi_parse_total (tokens : List Koi.SyntaxToken) :
    ∃ tree, Koi.parse tokens = some tree := by
  have hw : Koi.loopMeasure (Koi.Parser.with' ⟨tokens, 0⟩) ≤
      2 * tokens.length := by
    simp [Koi.loopMeasure, Koi.pMeasure, Koi.Parser.with']
  have hfuel : 2 * (2 * tokens.length) + 6 ≤ Koi.parseFuel tokens := by
    unfold Koi.parseFuel
    omega
  obtain ⟨⟨tree, pf⟩, hr⟩ :=
    Koi.parse_loop_adequacy (2 * tokens.length) (Koi.parseFuel tokens)
      (Koi.Parser.with' ⟨tokens, 0⟩) [] hw hfuel
  exact ⟨tree, by simp only [Koi.parse, hr]⟩

/-- C3: parsing `"a + b * c"` nests the multiplication node under the
right operand of the addition node; parsing `"a - b - c"` nests
left-associatively, `(a - b) - c`; and in general the binary-expression
loop consumes an infix operator only while its left binding power is at
least `min_precedence`, recursing with the operator's right binding power
for the right-hand side. -/
theorem binary_precedence_assoc :
    (Koi.parse Koi.plusTimesTokens =
      some ⟨[.ExpressionNode
        (.BinaryExpressionNode (Koi.tk (.Symbol .Plus) "+" 2)
          (.IdentifierExpressionNode (Koi.tk .Identifier "a" 0))
          (.BinaryExpressionNode (Koi.tk (.Symbol .Asterisk) "*" 6)
            (.IdentifierExpressionNode (Koi.tk .Identifier "b" 4))
            (.IdentifierExpressionNode (Koi.tk .Identifier "c" 8))))]⟩) ∧
    (Koi.parse Koi.minusMinusTokens =
      some ⟨[.ExpressionNode
        (.BinaryExpressionNode (Koi.tk (.Symbol .Minus) "-" 6)
          (.BinaryExpressionNode (Koi.tk (.Symbol .Minus) "-" 2)
            (.IdentifierExpressionNode (Koi.tk .Identifier "a" 0))
            (.IdentifierExpressionNode (Koi.tk .Identifier "b" 4)))
          (.IdentifierExpressionNode (Koi.tk .Identifier "c" 8)))]⟩) ∧
    (∀ (n : Nat) (lhs : Koi.Expr) (mp : Nat) (p p' : Koi.Parser)
        (t : Koi.SyntaxToken) (sym : Koi.Symbol) (l r : Nat),
      p.peek = (some t, p') → t.kind = .Symbol sym →
      Koi.infix_binding_power sym = some (l, r) →
      ((l < mp → Koi.binary_loop (n + 1) lhs mp p = some (lhs, p')) ∧
       (¬ l < mp → Koi.binary_loop (n + 1) lhs mp p =
         (match Koi.parse_binary_expression n r (p'.next_token).2 with
          | none => none
          | some (rhs, p2) =>
            Koi.binary_loop n
              (.BinaryExpressionNode (p'.next_token).1 lhs rhs) mp p2)))) := by
  refine ⟨rfl, rfl, ?_⟩
  intro n lhs mp p p' t sym l r hpk hk hibp
  constructor
  · intro hlt
    simp only [Koi.binary_loop, hpk, hk, hibp]
    rw [if_pos hlt]
  · intro hge
    simp only [Koi.binary_loop, hpk, hk, hibp]
    rw [if_neg hge]

/-- Witness for C3's general conjunct: with `+` (left power 7) buffered
and `min_precedence = 8`, the loop stops and returns the left-hand side
unchanged. -/
theorem binary_precedence_assoc_witness :
    Koi.binary_loop 6 (.IdentifierExpressionNode (Koi.tk .Identifier "a" 0)) 8
        ⟨⟨[], 3⟩, some (Koi.tk (.Symbol .Plus) "+" 2)⟩ =
      some (.IdentifierExpressionNode (Koi.tk .Identifier "a" 0),
        ⟨⟨[], 3⟩, some (Koi.tk (.Symbol .Plus) "+" 2)⟩) :=
  (binary_precedence_assoc.2.2 5
      (.IdentifierExpressionNode (Koi.tk .Identifier "a" 0)) 8
      ⟨⟨[], 3⟩, some (Koi.tk (.Symbol .Plus) "+" 2)⟩
      ⟨⟨[], 3⟩, some (Koi.tk (.Symbol .Plus) "+" 2)⟩
      (Koi.tk (.Symbol .Plus) "+" 2) .Plus 7 8 rfl rfl rfl).1 (by decide)

/-- C5: the code diverges from the claim. On `"+ a"` the token `+` cannot
start a primary expression, and `parse_unary_expression`'s error path
builds the unexpected-token node from `self.lexer.next_token()` directly —
bypassing the peek buffer that already holds the consumed `+` — so the
resulting tree wraps the FOLLOWING token `a` and the offending `+` is
dropped from the tree entirely, rather than being preserved as claimed. -/
theorem unexpected_token_symbol_dropped :
    Koi.parse Koi.plusIdentTokens =
      some ⟨[.ExpressionNode
        (.UnexpectedTokenNode (Koi.tk .Identifier "a" 2))]⟩ := rfl
